import Mathlib

/-!
Verification of the DDSketch C++ implementation (`includes/ddsketch/ddsketch.h`)
against its natural-language specification.

The development is a shallow embedding of the source:

* counters (`RealValue`, C++ `double`) are modelled by an arbitrary linear
  ordered commutative ring `K` (instantiated at `ℤ` for the executable
  store-level witnesses — every counter arising there is integral — and at
  `ℝ` for the sketch-level statements);
* bin keys (`Index`, C++ `int64_t`) are modelled by `ℤ`; the `int64` sentinel
  values used by the store are kept as the exact integers `2^63 - 1` and
  `-2^63` (no modeled operation overflows on the inputs appearing in the
  theorems below);
* the deque `BinList` is modelled by `List K`;
* C++ integer division (toward zero) is `Int.tdiv`; `std::ceil` applied to an
  exact ratio of integers is integer ceiling division, written
  `-(Int.ediv (-d) c)`.

Every definition follows the corresponding C++ member function; comments give
the source lines.
-/

namespace DDSketchModel

/-- `std::numeric_limits<int64_t>::max()`. -/
def kInt64Max : ℤ := 2 ^ 63 - 1

/-- `std::numeric_limits<int64_t>::min()`. -/
def kInt64Min : ℤ := -(2 ^ 63)

/-- `kChunkSize` (ddsketch.h line 52). -/
def kChunkSize : ℤ := 128

section BinListModel

variable {K : Type _} [LinearOrderedCommRing K]

/-- `BinList::collapsed_count(start_idx, end_idx)` (lines 119-127):
`std::accumulate(begin + start, begin + end, 0)`.  All call sites reached by
the theorems below satisfy `0 ≤ start ≤ end ≤ size`, where this model agrees
with the C++ code. -/
def collapsedCount (l : List K) (s e : ℤ) : K :=
  (((l.drop s.toNat).take (e - s).toNat).sum)

/-- `BinList::sum()` (lines 141-143). -/
def binSum (l : List K) : K := collapsedCount l 0 (l.length : ℤ)

/-- `BinList::extend_front_with_zeros` (lines 151-158). -/
def extendFront (l : List K) (n : ℕ) : List K := List.replicate n 0 ++ l

/-- `BinList::extend_back_with_zeros` (lines 160-167). -/
def extendBack (l : List K) (n : ℕ) : List K := l ++ List.replicate n 0

/-- `BinList::remove_trailing_elements` (lines 169-171). -/
def removeTrailing (l : List K) (n : ℕ) : List K := l.take (l.length - n)

/-- `BinList::remove_leading_elements` (lines 173-175). -/
def removeLeading (l : List K) (n : ℕ) : List K := l.drop n

/-- `BinList::replace_range_with_zeros(start, end, num_zeros)` (lines 177-184). -/
def replaceRangeWithZeros (l : List K) (s e : ℤ) (n : ℕ) : List K :=
  l.take s.toNat ++ List.replicate n 0 ++ l.drop e.toNat

/-- Read `data_[i]` (in-bounds at every modeled call site). -/
def binGet (l : List K) (i : ℤ) : K :=
  if 0 ≤ i then l.getD i.toNat 0 else 0

/-- `data_[i] += w` (in-bounds at every modeled call site). -/
def binAddAt (l : List K) (i : ℤ) (w : K) : List K :=
  if 0 ≤ i then l.set i.toNat (l.getD i.toNat 0 + w) else l

/-- `data_[i] = v`. -/
def binSet (l : List K) (i : ℤ) (v : K) : List K :=
  if 0 ≤ i then l.set i.toNat v else l

end BinListModel

/-- State of `BaseDenseStore` (ddsketch.h lines 271-461): fields
`count_`, `min_key_`, `max_key_`, `chunk_size_`, `offset_`, `bins_`. -/
structure DStore (K : Type _) where
  count : K
  minKey : ℤ
  maxKey : ℤ
  chunkSize : ℤ
  offset : ℤ
  bins : List K
  deriving Repr, DecidableEq

namespace DStore

variable {K : Type _} [LinearOrderedCommRing K]

/-- The `BaseDenseStore` constructor (lines 273-279). -/
def init (chunkSize : ℤ) : DStore K :=
  ⟨0, kInt64Max, kInt64Min, chunkSize, 0, []⟩

/-- `length()` (lines 319-321). -/
def length (s : DStore K) : ℤ := (s.bins.length : ℤ)

/-- `is_empty()` (lines 323-325): `length() == kEmptyStoreLength` with
`kEmptyStoreLength = 0`. -/
def isEmpty (s : DStore K) : Bool := s.length = 0

/-- `BaseDenseStore::get_new_length` (lines 368-373):
`num_chunks = std::ceil((1.0 * desired_length) / chunk_size)`; for the integer
operand ranges arising here the double computation is exact, i.e. equals the
rational ceiling `⌈desired_length / chunk_size⌉`, written as an integer
ceiling division. -/
def getNewLength (chunkSize newMinKey newMaxKey : ℤ) : ℤ :=
  chunkSize * (-(Int.ediv (-(newMaxKey - newMinKey + 1)) chunkSize))

/-- `shift_bins` (lines 387-399). -/
def shiftBins (s : DStore K) (shift : ℤ) : DStore K :=
  if 0 < shift then
    { s with bins := extendFront (removeTrailing s.bins shift.toNat) shift.toNat,
             offset := s.offset - shift }
  else
    { s with bins := extendBack (removeLeading s.bins (-shift).toNat) (-shift).toNat,
             offset := s.offset - shift }

/-- `center_bins` (lines 402-406); C++ `/` on `Index` is division toward zero. -/
def centerBins (s : DStore K) (newMinKey newMaxKey : ℤ) : DStore K :=
  let middle := newMinKey + (newMaxKey - newMinKey + 1).tdiv 2
  s.shiftBins (s.offset + s.length.tdiv 2 - middle)

/-- `BaseDenseStore::adjust` (lines 379-384). -/
def adjust (s : DStore K) (newMinKey newMaxKey : ℤ) : DStore K :=
  let s' := s.centerBins newMinKey newMaxKey
  { s' with minKey := newMinKey, maxKey := newMaxKey }

/-- `extend_range(key, second_key)` (lines 409-433). -/
def extendRange (s : DStore K) (key secondKey : ℤ) : DStore K :=
  let newMinKey := min (min key secondKey) s.minKey
  let newMaxKey := max (max key secondKey) s.maxKey
  if s.isEmpty then
    let newLength := getNewLength s.chunkSize newMinKey newMaxKey
    let s' := { s with bins := List.replicate newLength.toNat 0, offset := newMinKey }
    s'.adjust newMinKey newMaxKey
  else if s.minKey ≤ newMinKey ∧ newMaxKey < s.offset + s.length then
    { s with minKey := newMinKey, maxKey := newMaxKey }
  else
    let newLength := getNewLength s.chunkSize newMinKey newMaxKey
    let s' :=
      if s.length < newLength then
        { s with bins := extendBack s.bins (newLength - s.length).toNat }
      else s
    s'.adjust newMinKey newMaxKey

/-- `BaseDenseStore::get_index` (lines 440-445); returns the updated store
together with the index. -/
def getIndex (s : DStore K) (key : ℤ) : DStore K × ℤ :=
  if key < s.minKey ∨ s.maxKey < key then
    let s' := s.extendRange key key
    (s', key - s'.offset)
  else (s, key - s.offset)

/-- `BaseDenseStore::add(key, weight)` (lines 327-332). -/
def add (s : DStore K) (key : ℤ) (weight : K) : DStore K :=
  let p := s.getIndex key
  { p.1 with bins := binAddAt p.1.bins p.2 weight, count := p.1.count + weight }

/-- The loop `for key = lo; key <= hi; ++key: bins_[key-offset_] += store.bins_[key-store.offset_]`
(lines 361-362 and 522-524), with `n = hi - lo + 1` iterations. -/
def addRange (dst : List K) (dstOff : ℤ) (src : List K) (srcOff : ℤ) : ℤ → ℕ → List K
  | _, 0 => dst
  | k, Nat.succ n =>
      addRange (binAddAt dst (k - dstOff) (binGet src (k - srcOff))) dstOff src srcOff (k + 1) n

/-- `BaseDenseStore::copy` (lines 299-305): copies `count_`, `min_key_`,
`max_key_`, `offset_`, `bins_` (not `chunk_size_`). -/
def copyFrom (s other : DStore K) : DStore K :=
  { s with count := other.count, minKey := other.minKey, maxKey := other.maxKey,
           offset := other.offset, bins := other.bins }

/-- `BaseDenseStore::merge` (lines 349-365). -/
def merge (s other : DStore K) : DStore K :=
  if other.count = 0 then s
  else if s.count = 0 then s.copyFrom other
  else
    let s1 :=
      if other.minKey < s.minKey ∨ s.maxKey < other.maxKey then
        s.extendRange other.minKey other.maxKey
      else s
    let bins' := addRange s1.bins s1.offset other.bins other.offset other.minKey
        (other.maxKey - other.minKey + 1).toNat
    { s1 with bins := bins', count := s1.count + other.count }

end DStore

/-- State of `CollapsingLowestDenseStore` (ddsketch.h lines 470-618): the
`BaseDenseStore` fields plus `bin_limit_` and `is_collapsed_`. -/
structure CLStore (K : Type _) where
  count : K
  minKey : ℤ
  maxKey : ℤ
  chunkSize : ℤ
  offset : ℤ
  bins : List K
  binLimit : ℤ
  isCollapsed : Bool
  deriving Repr, DecidableEq

namespace CLStore

variable {K : Type _} [LinearOrderedCommRing K]

/-- The `CollapsingLowestDenseStore` constructor (lines 473-478). -/
def init (binLimit chunkSize : ℤ) : CLStore K :=
  ⟨0, kInt64Max, kInt64Min, chunkSize, 0, [], binLimit, false⟩

def length (s : CLStore K) : ℤ := (s.bins.length : ℤ)

def isEmpty (s : CLStore K) : Bool := s.length = 0

/-- `CollapsingLowestDenseStore::get_new_length` (lines 530-535): the dense
quantity capped at `bin_limit_`. -/
def getNewLength (s : CLStore K) (newMinKey newMaxKey : ℤ) : ℤ :=
  min (DStore.getNewLength s.chunkSize newMinKey newMaxKey) s.binLimit

/-- `shift_bins` (inherited, lines 387-399). -/
def shiftBins (s : CLStore K) (shift : ℤ) : CLStore K :=
  if 0 < shift then
    { s with bins := extendFront (removeTrailing s.bins shift.toNat) shift.toNat,
             offset := s.offset - shift }
  else
    { s with bins := extendBack (removeLeading s.bins (-shift).toNat) (-shift).toNat,
             offset := s.offset - shift }

/-- `center_bins` (inherited, lines 402-406). -/
def centerBins (s : CLStore K) (newMinKey newMaxKey : ℤ) : CLStore K :=
  let middle := newMinKey + (newMaxKey - newMinKey + 1).tdiv 2
  s.shiftBins (s.offset + s.length.tdiv 2 - middle)

/-- `CollapsingLowestDenseStore::adjust` (lines 559-613). -/
def adjust (s : CLStore K) (newMinKey newMaxKey : ℤ) : CLStore K :=
  if s.length < newMaxKey - newMinKey + 1 then
    let newMin := newMaxKey - s.length + 1
    if s.maxKey ≤ newMin then
      { s with offset := newMin, minKey := newMin,
               bins := binSet (List.replicate s.bins.length (0 : K)) 0 s.count,
               maxKey := newMaxKey, isCollapsed := true }
    else
      let shift := s.offset - newMin
      if shift < 0 then
        let collapseStartIndex := s.minKey - s.offset
        let collapseEndIndex := newMin - s.offset
        let cc := collapsedCount s.bins collapseStartIndex collapseEndIndex
        let bins1 := replaceRangeWithZeros s.bins collapseStartIndex collapseEndIndex
            (newMin - s.minKey).toNat
        let bins2 := binAddAt bins1 collapseEndIndex cc
        let s' := ({ s with bins := bins2, minKey := newMin } : CLStore K).shiftBins shift
        { s' with maxKey := newMaxKey, isCollapsed := true }
      else
        let s' := ({ s with minKey := newMin } : CLStore K).shiftBins shift
        { s' with maxKey := newMaxKey, isCollapsed := true }
  else
    let s' := s.centerBins newMinKey newMaxKey
    { s' with minKey := newMinKey, maxKey := newMaxKey }

/-- `extend_range(key, second_key)` (inherited, lines 409-433), with the
collapsing `get_new_length` and `adjust`. -/
def extendRange (s : CLStore K) (key secondKey : ℤ) : CLStore K :=
  let newMinKey := min (min key secondKey) s.minKey
  let newMaxKey := max (max key secondKey) s.maxKey
  if s.isEmpty then
    let newLength := s.getNewLength newMinKey newMaxKey
    let s' := { s with bins := List.replicate newLength.toNat (0 : K), offset := newMinKey }
    s'.adjust newMinKey newMaxKey
  else if s.minKey ≤ newMinKey ∧ newMaxKey < s.offset + s.length then
    { s with minKey := newMinKey, maxKey := newMaxKey }
  else
    let newLength := s.getNewLength newMinKey newMaxKey
    let s' :=
      if s.length < newLength then
        { s with bins := extendBack s.bins (newLength - s.length).toNat }
      else s
    s'.adjust newMinKey newMaxKey

/-- `CollapsingLowestDenseStore::get_index` (lines 538-552). -/
def getIndex (s : CLStore K) (key : ℤ) : CLStore K × ℤ :=
  if key < s.minKey then
    if s.isCollapsed then (s, 0)
    else
      let s' := s.extendRange key key
      if s'.isCollapsed then (s', 0) else (s', key - s'.offset)
  else if s.maxKey < key then
    let s' := s.extendRange key key
    (s', key - s'.offset)
  else (s, key - s.offset)

/-- `add(key, weight)` (inherited, lines 327-332). -/
def add (s : CLStore K) (key : ℤ) (weight : K) : CLStore K :=
  let p := s.getIndex key
  { p.1 with bins := binAddAt p.1.bins p.2 weight, count := p.1.count + weight }

/-- `CollapsingLowestDenseStore::copy` (lines 484-493): also copies
`bin_limit_` and `is_collapsed_`. -/
def copyFrom (s other : CLStore K) : CLStore K :=
  { s with count := other.count, minKey := other.minKey, maxKey := other.maxKey,
           offset := other.offset, bins := other.bins,
           binLimit := other.binLimit, isCollapsed := other.isCollapsed }

/-- `CollapsingLowestDenseStore::merge` (lines 495-527), modelled verbatim.
Note that line 513-515 computes `bins_.collapsed_count(...)` on the
*receiver's* `bins_`, with indices relative to `store`'s offset. -/
def merge (s other : CLStore K) : CLStore K :=
  if other.count = 0 then s
  else if s.count = 0 then s.copyFrom other
  else
    let s1 :=
      if other.minKey < s.minKey ∨ s.maxKey < other.maxKey then
        s.extendRange other.minKey other.maxKey
      else s
    let collapseStartIdx := other.minKey - other.offset
    let collapseEndIdx0 := min s1.minKey (other.maxKey + 1) - other.offset
    if collapseStartIdx < collapseEndIdx0 then
      let cc := collapsedCount s1.bins collapseStartIdx collapseEndIdx0
      let bins1 := binAddAt s1.bins 0 cc
      let bins2 := DStore.addRange bins1 s1.offset other.bins other.offset
          (collapseEndIdx0 + other.offset)
          (other.maxKey - (collapseEndIdx0 + other.offset) + 1).toNat
      { s1 with bins := bins2, count := s1.count + other.count }
    else
      let bins2 := DStore.addRange s1.bins s1.offset other.bins other.offset
          (collapseStartIdx + other.offset)
          (other.maxKey - (collapseStartIdx + other.offset) + 1).toNat
      { s1 with bins := bins2, count := s1.count + other.count }

end CLStore

/-- The loop body of `key_at_rank` (lines 334-347): returns the 0-based index
of the first bin at which the running count satisfies the threshold, if any. -/
def keyAtRankGo {K : Type _} [LinearOrderedCommRing K] (rank : K) (lower : Bool) :
    List K → K → ℕ → Option ℕ
  | [], _, _ => none
  | b :: rest, running, idx =>
      let r := running + b
      if (lower = true ∧ rank < r) ∨ (lower = false ∧ rank + 1 ≤ r) then some idx
      else keyAtRankGo rank lower rest r (idx + 1)

/-- `BaseDenseStore::key_at_rank(rank, lower)` (lines 334-347). -/
def DStore.keyAtRank {K : Type _} [LinearOrderedCommRing K]
    (s : DStore K) (rank : K) (lower : Bool) : ℤ :=
  ((keyAtRankGo rank lower s.bins 0 0).map (fun i => (i : ℤ) + s.offset)).getD s.maxKey

section KeyAtRankSpec

variable {K : Type _} [LinearOrderedCommRing K]

/-- The threshold test of `key_at_rank`: the running count `r` answers rank
`rank` (`running_ct > rank` when `lower`, `running_ct >= rank + 1` otherwise). -/
def rankCond (rank : K) (lower : Bool) (r : K) : Prop :=
  if lower then rank < r else rank + 1 ≤ r

instance (rank : K) (lower : Bool) (r : K) : Decidable (rankCond rank lower r) := by
  unfold rankCond; infer_instance

/-- Cumulative count over the bins with key at most `k` (the key of position
`i` being `i + offset`). -/
def cumCount (s : DStore K) (k : ℤ) : K :=
  ((s.bins.take (k - s.offset + 1).toNat).sum)

/-- The set of keys inside the store's backing window whose cumulative count
answers the rank query. -/
def rankKeySet (s : DStore K) (rank : K) (lower : Bool) : Set ℤ :=
  {k : ℤ | s.offset ≤ k ∧ k < s.offset + (s.bins.length : ℤ) ∧
           rankCond rank lower (cumCount s k)}

/-- A store whose only nonzero bins hold count 1 at keys `a` and
`a + pad + 1`: bin list `[1, 0, …, 0, 1]` with offset `a`
(the shape used by the spec's key_at_rank tie table). -/
def twoUnitBins (pad : ℕ) : List K := 1 :: (List.replicate pad 0 ++ [1])

end KeyAtRankSpec

/-- The self store of the collapsing-merge failing input:
`CollapsingLowestDenseStore(bin_limit=2, chunk_size=1)` after
`add(11)`, `add(11)`, `add(11)`, `add(12)`; its state is
`{count 4, min_key 11, max_key 12, offset 11, bins [3, 1]}`. -/
def lowSelf : CLStore ℤ := ((((CLStore.init 2 1).add 11 1).add 11 1).add 11 1).add 12 1

/-- The other store of the collapsing-merge failing input:
`CollapsingLowestDenseStore(bin_limit=8, chunk_size=1)` after
`add(10)`, `add(12)`; its state is
`{count 2, min_key 10, max_key 12, offset 10, bins [1, 0, 1]}`. -/
def lowOther : CLStore ℤ := ((CLStore.init 8 1).add 10 1).add 12 1

/-- The collapsing-lowest merge as described by the specification (spec 4.3.4
and claim C2): `collapse_end = min(self.min_key, other.max_key + 1)`, the
counters of *other* over keys `[other.min_key, collapse_end)` are summed into
the receiver's bin 0, then for each key in `[collapse_end, other.max_key]`
other's counter is added into the receiver's bin for that key.  This
definition follows the spec's words; it is compared against `CLStore.merge`,
which follows the code. -/
def specLowestMerge {K : Type _} [LinearOrderedCommRing K] (s other : CLStore K) : CLStore K :=
  if other.count = 0 then s
  else if s.count = 0 then s.copyFrom other
  else
    let s1 :=
      if other.minKey < s.minKey ∨ s.maxKey < other.maxKey then
        s.extendRange other.minKey other.maxKey
      else s
    let collapseEnd := min s1.minKey (other.maxKey + 1)
    let cc := collapsedCount other.bins (other.minKey - other.offset)
        (collapseEnd - other.offset)
    let bins1 := if other.minKey < collapseEnd then binAddAt s1.bins 0 cc else s1.bins
    let bins2 := DStore.addRange bins1 s1.offset other.bins other.offset collapseEnd
        (other.maxKey - collapseEnd + 1).toNat
    { s1 with bins := bins2, count := s1.count + other.count }

/-- A concrete store with unit-count bins at keys 0 and 1 (bin list `[1, 1]`,
offset 0), used as the witness input for the key_at_rank tie table. -/
def twoBinExample : DStore ℤ := ⟨2, 0, 1, 128, 0, [1, 1]⟩

/-!
## Mapping layer

The `KeyMapping` hierarchy (ddsketch.h lines 814-1049) computes with `double`;
it is embedded with exact real arithmetic (`ℝ`): `std::log2`, `std::exp2`,
`std::log1p`, `std::frexp`, `std::ldexp`, `std::sqrt` and `std::cbrt` become
their exact mathematical counterparts.
-/

/-- `std::numeric_limits<double>::min()`: the smallest positive normal double,
`2^(-1022)`. -/
noncomputable def dblMin : ℝ := (2 : ℝ) ^ (-1022 : ℤ)

/-- `std::numeric_limits<double>::max()`: `(2 - 2^(-52)) * 2^1023 = 2^1024 - 2^971`. -/
noncomputable def dblMax : ℝ := (2 : ℝ) ^ (1024 : ℤ) - (2 : ℝ) ^ (971 : ℤ)

/-- `gamma_ = 1 + gamma_mantissa` with
`gamma_mantissa = 2*relative_accuracy/(1 - relative_accuracy)` (lines 876-878). -/
noncomputable def gammaOf (α : ℝ) : ℝ := 1 + 2 * α / (1 - α)

/-- `multiplier_ = 1/log1p(gamma_mantissa)` (line 879); in exact arithmetic
`log1p(2α/(1-α)) = ln γ`. -/
noncomputable def multiplierOf (α : ℝ) : ℝ := 1 / Real.log (gammaOf α)

/-- `min_possible_ = numeric_limits<double>::min() * gamma_` (line 881). -/
noncomputable def minPossible (α : ℝ) : ℝ := dblMin * gammaOf α

/-- `max_possible_ = numeric_limits<double>::max() / gamma_` (line 882). -/
noncomputable def maxPossible (α : ℝ) : ℝ := dblMax / gammaOf α

/-- `static_cast<Index>(x)` on a `double`: truncation toward zero. -/
noncomputable def truncZ (x : ℝ) : ℤ := if 0 ≤ x then ⌊x⌋ else ⌈x⌉

/-- The exponent returned by `std::frexp(v, &e)` for `v > 0`:
`v = m * 2^e` with `m ∈ [0.5, 1)`. -/
noncomputable def fexp (v : ℝ) : ℤ := ⌊Real.logb 2 v⌋ + 1

/-- `significand = 2.0 * mantissa - 1` with `mantissa` from `frexp`
(lines 966-967 and 1008-1009). -/
noncomputable def sig (v : ℝ) : ℝ := 2 * (v / (2 : ℝ) ^ fexp v) - 1

/-- `LogarithmicMapping`'s multiplier: `multiplier_ *= log(2.0)` (line 929). -/
noncomputable def multLog (α : ℝ) : ℝ := multiplierOf α * Real.log 2

/-- `LogarithmicMapping::log_gamma` (lines 933-935): `log2(value) * multiplier_`. -/
noncomputable def logGammaLog (α v : ℝ) : ℝ := Real.logb 2 v * multLog α

/-- `LogarithmicMapping::pow_gamma` (lines 937-939): `exp2(value / multiplier_)`. -/
noncomputable def powGammaLog (α y : ℝ) : ℝ := (2 : ℝ) ^ (y / multLog α)

/-- `LinearlyInterpolatedMapping::log2_approx` (lines 963-969):
`significand + (exponent - 1)`. -/
noncomputable def log2Approx (v : ℝ) : ℝ := sig v + ((fexp v : ℝ) - 1)

/-- `LinearlyInterpolatedMapping::exp2_approx` (lines 972-976):
`exponent = floor(value) + 1; mantissa = (value - exponent + 2)/2;
ldexp(mantissa, exponent)`. -/
noncomputable def exp2Approx (y : ℝ) : ℝ :=
  ((y - ((⌊y⌋ : ℝ) + 1) + 2) / 2) * (2 : ℝ) ^ (⌊y⌋ + 1)

/-- `LinearlyInterpolatedMapping::log_gamma` (lines 978-980). -/
noncomputable def logGammaLin (α v : ℝ) : ℝ := log2Approx v * multiplierOf α

/-- `LinearlyInterpolatedMapping::pow_gamma` (lines 982-984). -/
noncomputable def powGammaLin (α y : ℝ) : ℝ := exp2Approx (y / multiplierOf α)

/-- `CubicallyInterpolatedMapping::A_ = 6/35` (line 1046). -/
noncomputable def cubicA : ℝ := 6 / 35

/-- `CubicallyInterpolatedMapping::B_ = -3/5` (line 1047). -/
noncomputable def cubicB : ℝ := -3 / 5

/-- `CubicallyInterpolatedMapping::C_ = 10/7` (line 1048). -/
noncomputable def cubicC : ℝ := 10 / 7

/-- The interpolation cubic `((A*s + B)*s + C)*s` (line 1012). -/
noncomputable def cubicP (s : ℝ) : ℝ := ((cubicA * s + cubicB) * s + cubicC) * s

/-- `std::cbrt`: the real cube root. -/
noncomputable def cbrt (x : ℝ) : ℝ :=
  if x < 0 then -((-x) ^ ((1 : ℝ) / 3)) else x ^ ((1 : ℝ) / 3)

/-- `CubicallyInterpolatedMapping::cubic_log2_approx` (lines 1006-1014). -/
noncomputable def cubicLog2Approx (v : ℝ) : ℝ :=
  ((cubicA * sig v + cubicB) * sig v + cubicC) * sig v + ((fexp v : ℝ) - 1)

/-- The significand recovered by Cardano's formula in `cubic_exp2_approx`
(lines 1019-1031), as a function of `f = value - floor(value)`:
`delta_0 = B² - 3AC`, `delta_1 = 2B³ - 9ABC - 27A²f`,
`cardano = cbrt((delta_1 - sqrt(delta_1² - 4 delta_0³))/2)`,
result `= -(B + cardano + delta_0/cardano)/(3A)`. -/
noncomputable def cardanoS (f : ℝ) : ℝ :=
  let d0 := cubicB ^ 2 - 3 * cubicA * cubicC;
  let d1 := 2 * cubicB ^ 3 - 9 * cubicA * cubicB * cubicC - 27 * cubicA ^ 2 * f;
  let card := cbrt ((d1 - Real.sqrt (d1 ^ 2 - 4 * d0 ^ 3)) / 2);
  (-(cubicB + card + d0 / card)) / (3 * cubicA)

/-- `CubicallyInterpolatedMapping::cubic_exp2_approx` (lines 1017-1036):
`ldexp((significand + 1)/2, floor(value) + 1)`. -/
noncomputable def cubicExp2Approx (y : ℝ) : ℝ :=
  ((cardanoS (y - ⌊y⌋) + 1) / 2) * (2 : ℝ) ^ (⌊y⌋ + 1)

/-- `CubicallyInterpolatedMapping`'s multiplier: `multiplier_ /= C_` (line 1001). -/
noncomputable def multCub (α : ℝ) : ℝ := multiplierOf α / cubicC

/-- `CubicallyInterpolatedMapping::log_gamma` (lines 1038-1040). -/
noncomputable def logGammaCub (α v : ℝ) : ℝ := cubicLog2Approx v * multCub α

/-- `CubicallyInterpolatedMapping::pow_gamma` (lines 1042-1044). -/
noncomputable def powGammaCub (α y : ℝ) : ℝ := cubicExp2Approx (y / multCub α)

/-- The three `KeyMapping` variants (spec 4.1). -/
inductive MappingKind : Type
  | logarithmic
  | linearInterpolated
  | cubicInterpolated
  deriving DecidableEq

/-- The variant's `log_gamma`. -/
noncomputable def logGamma : MappingKind → ℝ → ℝ → ℝ
  | .logarithmic => logGammaLog
  | .linearInterpolated => logGammaLin
  | .cubicInterpolated => logGammaCub

/-- The variant's `pow_gamma`. -/
noncomputable def powGamma : MappingKind → ℝ → ℝ → ℝ
  | .logarithmic => powGammaLog
  | .linearInterpolated => powGammaLin
  | .cubicInterpolated => powGammaCub

/-- `KeyMapping::key(value)` (lines 822-824):
`static_cast<Index>(std::ceil(log_gamma(value)) + offset_)`. -/
noncomputable def keyM (mk : MappingKind) (α off v : ℝ) : ℤ :=
  truncZ ((⌈logGamma mk α v⌉ : ℝ) + off)

/-- `KeyMapping::value(key)` (lines 832-834):
`pow_gamma(key - offset_) * (2.0 / (1 + gamma_))`. -/
noncomputable def valueM (mk : MappingKind) (α off : ℝ) (key : ℤ) : ℝ :=
  powGamma mk α ((key : ℝ) - off) * (2 / (1 + gammaOf α))

/-!
## Sketch layer

`BaseDDSketch` (ddsketch.h lines 1056-1210), instantiated with the dense store
(`DDSketch` uses `BaseDDSketch<DenseStore, LogarithmicMapping>`).  The
`double` results of `avg()` and `get_quantile_value()` can be NaN or
infinite, so they are modelled by an explicit IEEE-flavoured value type.
-/

/-- An IEEE-754 double result: NaN, an infinity, or a finite real. -/
inductive DFloat : Type
  | nan : DFloat
  | posInf : DFloat
  | negInf : DFloat
  | fin : ℝ → DFloat

/-- IEEE division of two finite doubles (`0/0 = NaN`, `x/0 = ±∞`), in exact
real arithmetic otherwise. -/
noncomputable def divD (a b : ℝ) : DFloat :=
  if b = 0 then (if a = 0 then DFloat.nan else if 0 < a then DFloat.posInf else DFloat.negInf)
  else DFloat.fin (a / b)

/-- The runtime interface of a `KeyMapping` object as used by `BaseDDSketch`:
`gamma()`, `min_possible()`, `key()` and `value()` (the sketch template is
generic in the mapping). -/
structure MappingModel where
  gamma : ℝ
  minPoss : ℝ
  key : ℝ → ℤ
  value : ℤ → ℝ

/-- A `LogarithmicMapping(relative_accuracy, offset)` instance. -/
noncomputable def mkLogMapping (α off : ℝ) : MappingModel :=
  { gamma := gammaOf α
    minPoss := minPossible α
    key := keyM MappingKind.logarithmic α off
    value := valueM MappingKind.logarithmic α off }

/-- State of `BaseDDSketch` (lines 1199-1207): mapping, the two stores, and
the scalars `zero_count_`, `count_`, `min_`, `max_`, `sum_`. -/
structure SketchState where
  mapping : MappingModel
  store : DStore ℝ
  negStore : DStore ℝ
  zeroCount : ℝ
  count : ℝ
  minV : ℝ
  maxV : ℝ
  sumV : ℝ

/-- The `BaseDDSketch` constructor (lines 1058-1069).  Note lines 1066-1067:
`min_ = std::numeric_limits<RealValue>::max()` (DBL_MAX) and
`max_ = std::numeric_limits<RealValue>::min()` (DBL_MIN, the smallest
positive normal double) — not `+∞`/`-∞`. -/
noncomputable def initSketch (m : MappingModel) (st nst : DStore ℝ) : SketchState :=
  { mapping := m, store := st, negStore := nst, zeroCount := 0, count := 0,
    minV := dblMax, maxV := dblMin, sumV := 0 }

/-- `BaseDDSketch::add(val, weight)` (lines 1088-1109); `none` models the
`IllegalArgumentException` for non-positive weights. -/
noncomputable def addSketch (s : SketchState) (val weight : ℝ) : Option SketchState :=
  if weight ≤ 0 then none
  else
    let p :=
      if s.mapping.minPoss < val then
        (s.store.add (s.mapping.key val) weight, s.negStore, s.zeroCount)
      else if val < -s.mapping.minPoss then
        (s.store, s.negStore.add (s.mapping.key (-val)) weight, s.zeroCount)
      else (s.store, s.negStore, s.zeroCount + weight)
    some
      { s with
        store := p.1, negStore := p.2.1, zeroCount := p.2.2,
        count := s.count + weight,
        sumV := s.sumV + val * weight,
        minV := if val < s.minV then val else s.minV,
        maxV := if s.maxV < val then val else s.maxV }

/-- `BaseDDSketch::get_quantile_value(quantile)` (lines 1118-1139). -/
noncomputable def getQuantileValue (s : SketchState) (q : ℝ) : DFloat :=
  if q < 0 ∨ 1 < q ∨ s.count = 0 then DFloat.nan
  else
    let rank := q * (s.count - 1)
    if rank < s.negStore.count then
      DFloat.fin (-(s.mapping.value (s.negStore.keyAtRank (s.negStore.count - rank - 1) false)))
    else if rank < s.zeroCount + s.negStore.count then DFloat.fin 0
    else
      DFloat.fin (s.mapping.value
        (s.store.keyAtRank (rank - s.zeroCount - s.negStore.count) true))

/-- `BaseDDSketch::mergeable(other)` (lines 1176-1178):
`mapping_.gamma() == other.mapping_.gamma()`. -/
noncomputable def mergeableSketch (a b : SketchState) : Bool :=
  decide (a.mapping.gamma = b.mapping.gamma)

/-- `BaseDDSketch::copy(sketch)` (lines 1181-1189): copies the stores,
`zero_count_`, `min_`, `max_`, `count_` and `sum_` — but not `mapping_`. -/
def copySketch (s other : SketchState) : SketchState :=
  { other with mapping := s.mapping }

/-- `BaseDDSketch::merge(sketch)` (lines 1147-1173); `none` models the
`UnequalSketchParametersException`, thrown before the empty-sketch
short-circuits. -/
noncomputable def mergeSketch (s other : SketchState) : Option SketchState :=
  if ¬ (s.mapping.gamma = other.mapping.gamma) then none
  else if other.count = 0 then some s
  else if s.count = 0 then some (copySketch s other)
  else some
    { s with
      store := s.store.merge other.store,
      negStore := s.negStore.merge other.negStore,
      zeroCount := s.zeroCount + other.zeroCount,
      count := s.count + other.count,
      sumV := s.sumV + other.sumV,
      minV := if other.minV < s.minV then other.minV else s.minV,
      maxV := if s.maxV < other.maxV then other.maxV else s.maxV }

/-- `BaseDDSketch::avg()` (lines 1083-1085): `sum_ / count_` in `double`
arithmetic. -/
noncomputable def avgSketch (s : SketchState) : DFloat := divD s.sumV s.count

/-- A freshly constructed sketch (`DDSketch(0.01)`-like), used as the C4
failing input. -/
noncomputable def c4Sketch : SketchState :=
  initSketch (mkLogMapping (1 / 100) 0) (DStore.init 128) (DStore.init 128)

/-- An empty `BaseDDSketch<DenseStore, LogarithmicMapping>` built with
`LogarithmicMapping(0.5, offset = 1)` and chunk-1 dense stores: the receiver
of the C8 counterexample merge. -/
noncomputable def sketchA : SketchState :=
  initSketch (mkLogMapping (1 / 2) 1) (DStore.init 1) (DStore.init 1)

/-- An empty sketch with `LogarithmicMapping(0.5, offset = 0)` — same `γ` as
`sketchA` but a different mapping offset. -/
noncomputable def sketchB0 : SketchState :=
  initSketch (mkLogMapping (1 / 2) 0) (DStore.init 1) (DStore.init 1)

/-- The store holding a single unit weight at key 0, as produced by
`DenseStore(chunk_size = 1)` after `add(0)`. -/
noncomputable def storeB : DStore ℝ := ⟨1, 0, 0, 1, 0, [1]⟩

/-- `sketchB0` after `add(1.0)`: value 1 maps to key 0. -/
noncomputable def sketchB : SketchState :=
  { sketchB0 with store := storeB, count := 1, sumV := 1, minV := 1, maxV := 1 }

section KeyAtRankLemmas

variable {K : Type _} [LinearOrderedCommRing K]

theorem go_cond_iff (rank : K) (lower : Bool) (r : K) :
    ((lower = true ∧ rank < r) ∨ (lower = false ∧ rank + 1 ≤ r)) ↔ rankCond rank lower r := by
  cases lower <;> simp [rankCond]

theorem keyAtRankGo_eq_none (rank : K) (lower : Bool) :
    ∀ (l : List K) (running : K) (idx : ℕ),
      keyAtRankGo rank lower l running idx = none ↔
        ∀ m : ℕ, m < l.length → ¬ rankCond rank lower (running + ((l.take (m + 1)).sum)) := by
  intro l
  induction l with
  | nil => simp [keyAtRankGo]
  | cons b rest ih =>
      intro running idx
      by_cases h : rankCond rank lower (running + b)
      · simp only [keyAtRankGo, if_pos ((go_cond_iff rank lower (running + b)).2 h)]
        constructor
        · intro hc; exact absurd hc (by simp)
        · intro hall
          exact absurd (by simpa using hall 0 (by simp)) (by simpa using h)
      · simp only [keyAtRankGo, if_neg (fun hc => h ((go_cond_iff rank lower (running + b)).1 hc))]
        rw [ih (running + b) (idx + 1)]
        constructor
        · intro hall m hm
          match m with
          | 0 => simpa using h
          | Nat.succ m' =>
              have := hall m' (by simpa using Nat.lt_of_succ_lt_succ hm)
              simpa [add_assoc] using this
        · intro hall m hm
          have := hall (m + 1) (by simpa using Nat.succ_lt_succ hm)
          simpa [add_assoc] using this

theorem keyAtRankGo_eq_some (rank : K) (lower : Bool) :
    ∀ (l : List K) (running : K) (idx j : ℕ),
      keyAtRankGo rank lower l running idx = some j →
        ∃ m : ℕ, m < l.length ∧ j = idx + m ∧
          rankCond rank lower (running + (l.take (m + 1)).sum) ∧
          ∀ m' : ℕ, m' < m → ¬ rankCond rank lower (running + (l.take (m' + 1)).sum) := by
  intro l
  induction l with
  | nil => intro running idx j h; simp [keyAtRankGo] at h
  | cons b rest ih =>
      intro running idx j h
      by_cases hc : rankCond rank lower (running + b)
      · simp only [keyAtRankGo, if_pos ((go_cond_iff rank lower (running + b)).2 hc)] at h
        refine ⟨0, by simp, by simpa using h.symm, by simpa using hc, by simp⟩
      · simp only [keyAtRankGo,
          if_neg (fun hx => hc ((go_cond_iff rank lower (running + b)).1 hx))] at h
        obtain ⟨m, hm, hj, hcond, hmin⟩ := ih (running + b) (idx + 1) j h
        refine ⟨m + 1, by simpa using Nat.succ_lt_succ hm, by omega, ?_, ?_⟩
        · simpa [add_assoc] using hcond
        · intro m' hm'
          match m' with
          | 0 => simpa using hc
          | Nat.succ m'' =>
              have := hmin m'' (Nat.lt_of_succ_lt_succ hm')
              simpa [add_assoc] using this

theorem keyAtRankGo_skip_zeros (rank : K) (lower : Bool) (r : K)
    (h : ¬ rankCond rank lower r) :
    ∀ (p : ℕ) (rest : List K) (idx : ℕ),
      keyAtRankGo rank lower (List.replicate p 0 ++ rest) r idx =
        keyAtRankGo rank lower rest r (idx + p) := by
  intro p
  induction p with
  | zero => intro rest idx; simp
  | succ p ihp =>
      intro rest idx
      have hz : ¬ ((lower = true ∧ rank < r + 0) ∨ (lower = false ∧ rank + 1 ≤ r + 0)) := by
        intro hx
        exact h ((go_cond_iff rank lower r).1 (by simpa using hx))
      calc keyAtRankGo rank lower (List.replicate (p + 1) 0 ++ rest) r idx
      _ = keyAtRankGo rank lower (List.replicate p 0 ++ rest) (r + 0) (idx + 1) := by
          rw [List.replicate_succ, List.cons_append]
          simp only [keyAtRankGo, if_neg hz]
      _ = keyAtRankGo rank lower rest r (idx + (p + 1)) := by
          rw [add_zero, ihp rest (idx + 1)]
          congr 1
          omega

theorem binSum_eq_sum (l : List K) : binSum l = l.sum := by
  simp [binSum, collapsedCount]

theorem take_sum_le_sum (l : List K) (n : ℕ) (h : ∀ x ∈ l, (0 : K) ≤ x) :
    (l.take n).sum ≤ l.sum := by
  have hsplit : (l.take n).sum + (l.drop n).sum = l.sum := List.sum_take_add_sum_drop l n
  have hnn : 0 ≤ (l.drop n).sum :=
    List.sum_nonneg (fun x hx => h x ((List.drop_sublist n l).mem hx))
  linarith

end KeyAtRankLemmas

section KeyAtRankMain

variable {K : Type _} [LinearOrderedCommRing K]

theorem keyAtRankGo_cons (rank : K) (lower : Bool) (b : K) (rest : List K)
    (running : K) (idx : ℕ) :
    keyAtRankGo rank lower (b :: rest) running idx =
      if rankCond rank lower (running + b) then some idx
      else keyAtRankGo rank lower rest (running + b) (idx + 1) := by
  by_cases h : rankCond rank lower (running + b)
  · rw [if_pos h]
    simp only [keyAtRankGo, if_pos ((go_cond_iff rank lower (running + b)).2 h)]
  · rw [if_neg h]
    simp only [keyAtRankGo,
      if_neg (fun hc => h ((go_cond_iff rank lower (running + b)).1 hc))]

theorem rankCond_true (rank r : K) : rankCond rank true r ↔ rank < r := by
  simp [rankCond]

theorem rankCond_false (rank r : K) : rankCond rank false r ↔ rank + 1 ≤ r := by
  simp [rankCond]

/-- C6. `key_at_rank(r, lower)` (ddsketch.h lines 334-347) meets its contract:
(i) whenever some key of the store's backing window has a cumulative count
that answers the rank query (cumulative count strictly above `r` when `lower`,
at least `r + 1` otherwise), the returned key is the least such key;
(ii) if `r` is at least the total count of the bins, the store's `max_key_` is
returned; (iii) with unit-count bins at keys `a < b` (bin list
`[1, 0, …, 0, 1]` at offset `a`), lower=true sends rank `[0,1)` to `a` and
`[1,2)` to `b`, and lower=false sends `(−1,0]` to `a` and `(0,1]` to `b`. -/
theorem claim_C6_key_at_rank (s : DStore K) (rank : K) (lower : Bool) :
    ((rankKeySet s rank lower).Nonempty →
        IsLeast (rankKeySet s rank lower) (s.keyAtRank rank lower))
    ∧ ((∀ x ∈ s.bins, (0 : K) ≤ x) → binSum s.bins ≤ rank →
        s.keyAtRank rank lower = s.maxKey)
    ∧ (∀ pad : ℕ, s.bins = twoUnitBins pad →
        ((lower = true → 0 ≤ rank → rank < 1 →
            s.keyAtRank rank lower = s.offset)
         ∧ (lower = true → 1 ≤ rank → rank < 2 → s.maxKey = s.offset + pad + 1 →
            s.keyAtRank rank lower = s.maxKey)
         ∧ (lower = false → -1 < rank → rank ≤ 0 →
            s.keyAtRank rank lower = s.offset)
         ∧ (lower = false → 0 < rank → rank ≤ 1 → s.maxKey = s.offset + pad + 1 →
            s.keyAtRank rank lower = s.maxKey))) := by
  refine ⟨?_, ?_, ?_⟩
  · intro hne
    obtain ⟨k, hk1, hk2, hk3⟩ := hne
    have hm0 : (0 : ℤ) ≤ k - s.offset := by omega
    have hmlen : (k - s.offset).toNat < s.bins.length := by omega
    have hcum : cumCount s k = (s.bins.take ((k - s.offset).toNat + 1)).sum := by
      have hn : (k - s.offset + 1).toNat = (k - s.offset).toNat + 1 := by omega
      unfold cumCount
      rw [hn]
    cases hgo : keyAtRankGo rank lower s.bins 0 0 with
    | none =>
        exfalso
        have := ((keyAtRankGo_eq_none rank lower s.bins 0 0).1 hgo)
          ((k - s.offset).toNat) hmlen
        rw [zero_add] at this
        exact this (hcum ▸ hk3)
    | some j =>
        obtain ⟨m, hmlt, hjm, hcond, hmin⟩ := keyAtRankGo_eq_some rank lower s.bins 0 0 j hgo
        have hj : j = m := by omega
        rw [hj] at hgo
        have hres : s.keyAtRank rank lower = (m : ℤ) + s.offset := by
          simp [DStore.keyAtRank, hgo]
        rw [hres]
        constructor
        · simp only [rankKeySet, Set.mem_setOf_eq]
          refine ⟨by omega, by omega, ?_⟩
          have heq : cumCount s ((m : ℤ) + s.offset) = (s.bins.take (m + 1)).sum := by
            have hn : ((m : ℤ) + s.offset - s.offset + 1).toNat = m + 1 := by omega
            unfold cumCount
            rw [hn]
          rw [heq]
          rw [zero_add] at hcond
          exact hcond
        · intro k' hk'
          simp only [rankKeySet, Set.mem_setOf_eq] at hk'
          obtain ⟨hk'1, hk'2, hk'3⟩ := hk'
          by_contra hlt
          push_neg at hlt
          have hm'lt : (k' - s.offset).toNat < m := by omega
          have hcum' : cumCount s k' = (s.bins.take ((k' - s.offset).toNat + 1)).sum := by
            have hn : (k' - s.offset + 1).toNat = (k' - s.offset).toNat + 1 := by omega
            unfold cumCount
            rw [hn]
          have := hmin ((k' - s.offset).toNat) hm'lt
          rw [zero_add] at this
          exact this (hcum' ▸ hk'3)
  · intro hnn hle
    have hnone : keyAtRankGo rank lower s.bins 0 0 = none := by
      rw [keyAtRankGo_eq_none]
      intro m hm
      have hple : (s.bins.take (m + 1)).sum ≤ s.bins.sum := take_sum_le_sum s.bins (m + 1) hnn
      rw [binSum_eq_sum] at hle
      cases lower with
      | true => rw [zero_add, rankCond_true]; intro h; linarith
      | false => rw [zero_add, rankCond_false]; intro h; linarith
    simp [DStore.keyAtRank, hnone]
  · intro pad hbins
    have hgo1 : keyAtRankGo rank lower s.bins 0 0 =
        if rankCond rank lower 1 then some 0
        else keyAtRankGo rank lower (List.replicate pad 0 ++ [1]) 1 1 := by
      rw [hbins]
      unfold twoUnitBins
      rw [keyAtRankGo_cons]
      norm_num
    refine ⟨?_, ?_, ?_, ?_⟩
    · intro hlow _ hr1
      have hc : rankCond rank lower 1 := by rw [hlow, rankCond_true]; exact hr1
      simp [DStore.keyAtRank, hgo1, if_pos hc]
    · intro hlow hr1 hr2 hmax
      have hc : ¬ rankCond rank lower 1 := by rw [hlow, rankCond_true]; push_neg; exact hr1
      have hc2 : rankCond rank lower (1 + 1) := by rw [hlow, rankCond_true]; linarith
      have hgo2 : keyAtRankGo rank lower s.bins 0 0 = some (1 + pad) := by
        rw [hgo1, if_neg hc, keyAtRankGo_skip_zeros rank lower 1 hc pad [1] 1,
          keyAtRankGo_cons]
        rw [if_pos hc2]
      rw [hmax]
      simp [DStore.keyAtRank, hgo2]
      ring
    · intro hlow _ hr1
      have hc : rankCond rank lower 1 := by rw [hlow, rankCond_false]; linarith
      simp [DStore.keyAtRank, hgo1, if_pos hc]
    · intro hlow hr1 hr2 hmax
      have hc : ¬ rankCond rank lower 1 := by
        rw [hlow, rankCond_false]; push_neg; linarith
      have hc2 : rankCond rank lower (1 + 1) := by rw [hlow, rankCond_false]; linarith
      have hgo2 : keyAtRankGo rank lower s.bins 0 0 = some (1 + pad) := by
        rw [hgo1, if_neg hc, keyAtRankGo_skip_zeros rank lower 1 hc pad [1] 1,
          keyAtRankGo_cons]
        rw [if_pos hc2]
      rw [hmax]
      simp [DStore.keyAtRank, hgo2]
      ring

end KeyAtRankMain

end DDSketchModel

namespace DDSketchModel

/-- C2. The claim describes `CollapsingLowestDenseStore::merge` as summing the
counters of *other* over `[other.min_key, collapse_end)` into the receiver's
bin 0.  The code (ddsketch.h lines 512-517) instead sums the *receiver's own*
bins over those positions.  At the failing input below (`lowSelf` holds keys
{11,11,11,12} with bin_limit 2, `lowOther` holds keys {10,12}), the code
produces bins `[6, 2]` while the merge described by the claim (and the
replay of other's adds, which `merge` is documented to be equivalent to)
produces `[4, 2]`. -/
theorem claim_C2_collapsing_merge_sums_receiver_bins :
    (lowSelf.merge lowOther).bins = [6, 2]
    ∧ (specLowestMerge lowSelf lowOther).bins = [4, 2]
    ∧ ((lowSelf.add 10 1).add 12 1).bins = [4, 2]
    ∧ (lowSelf.merge lowOther).count = 6
    ∧ (lowSelf.merge lowOther).bins ≠ (specLowestMerge lowSelf lowOther).bins := by
  decide

/-- C5. The sum-preservation store invariant `sum(bins) == count` is broken by
`CollapsingLowestDenseStore::merge` (the same defect as C2): after the add
sequence {11,11,11,12} into `lowSelf` (bin_limit 2) and {10,12} into
`lowOther`, merging leaves `count = 6` (the total weight added, 6 adds of
weight 1) but `sum(bins) = 8`.  The `is_empty ⇔ length = 0` half of the claim
holds by definition (`isEmpty`). -/
theorem claim_C5_sum_invariant_broken_by_merge :
    (lowSelf.merge lowOther).count = 6
    ∧ binSum (lowSelf.merge lowOther).bins = 8
    ∧ binSum (lowSelf.merge lowOther).bins ≠ (lowSelf.merge lowOther).count := by
  decide

/-- Witness for C6 at a concrete input: the store `twoBinExample` (unit bins
at keys 0 and 1), exercising the least-key characterization at rank 0, each of
the four tie-table branches at the ranks 0 and 1 that they contain, and the
rank-at-least-total case at rank 5. -/
theorem claim_C6_key_at_rank_witness :
    ((rankKeySet twoBinExample (0 : ℤ) true).Nonempty
      ∧ IsLeast (rankKeySet twoBinExample (0 : ℤ) true)
          (twoBinExample.keyAtRank 0 true))
    ∧ twoBinExample.keyAtRank (0 : ℤ) true = twoBinExample.offset
    ∧ twoBinExample.keyAtRank (1 : ℤ) true = twoBinExample.maxKey
    ∧ twoBinExample.keyAtRank (0 : ℤ) false = twoBinExample.offset
    ∧ twoBinExample.keyAtRank (1 : ℤ) false = twoBinExample.maxKey
    ∧ twoBinExample.keyAtRank (5 : ℤ) true = twoBinExample.maxKey := by
  have hne : (rankKeySet twoBinExample (0 : ℤ) true).Nonempty := by
    refine ⟨0, ?_⟩
    simp only [rankKeySet, Set.mem_setOf_eq]
    refine ⟨by decide, by decide, by decide⟩
  refine ⟨⟨hne, (claim_C6_key_at_rank twoBinExample 0 true).1 hne⟩, ?_, ?_, ?_, ?_, ?_⟩
  · exact ((claim_C6_key_at_rank twoBinExample 0 true).2.2 0 (by decide)).1
      rfl (by norm_num) (by norm_num)
  · exact ((claim_C6_key_at_rank twoBinExample 1 true).2.2 0 (by decide)).2.1
      rfl (by norm_num) (by norm_num) (by decide)
  · exact ((claim_C6_key_at_rank twoBinExample 0 false).2.2 0 (by decide)).2.2.1
      rfl (by norm_num) (by norm_num)
  · exact ((claim_C6_key_at_rank twoBinExample 1 false).2.2 0 (by decide)).2.2.2
      rfl (by norm_num) (by norm_num) (by decide)
  · exact (claim_C6_key_at_rank twoBinExample 5 true).2.1 (by decide) (by decide)

end DDSketchModel

namespace DDSketchModel

section GammaFacts

theorem one_lt_gammaOf {α : ℝ} (h0 : 0 < α) (h1 : α < 1) : 1 < gammaOf α := by
  unfold gammaOf
  have h2 : 0 < 1 - α := by linarith
  have h3 : 0 < 2 * α / (1 - α) := by positivity
  linarith

theorem log_gammaOf_pos {α : ℝ} (h0 : 0 < α) (h1 : α < 1) : 0 < Real.log (gammaOf α) :=
  Real.log_pos (one_lt_gammaOf h0 h1)

theorem two_div_one_add_gammaOf {α : ℝ} (h0 : 0 < α) (h1 : α < 1) :
    2 / (1 + gammaOf α) = 1 - α := by
  unfold gammaOf
  have h2 : (1 : ℝ) - α ≠ 0 := by linarith
  field_simp
  ring

theorem one_sub_mul_gammaOf {α : ℝ} (h0 : 0 < α) (h1 : α < 1) :
    (1 - α) * gammaOf α = 1 + α := by
  unfold gammaOf
  have h2 : (1 : ℝ) - α ≠ 0 := by linarith
  field_simp
  ring

theorem dblMin_pos : 0 < dblMin := by
  unfold dblMin
  positivity

theorem minPossible_pos {α : ℝ} (h0 : 0 < α) (h1 : α < 1) : 0 < minPossible α := by
  unfold minPossible
  have := one_lt_gammaOf h0 h1
  have := dblMin_pos
  nlinarith

theorem truncZ_intCast (n : ℤ) : truncZ ((n : ℝ)) = n := by
  unfold truncZ
  split
  · exact Int.floor_intCast n
  · exact Int.ceil_intCast n

end GammaFacts

section RoundTripCore

/-- For an exactly invertible, monotone `pow_gamma` whose `log_gamma` climbs by
at least 1 from `v` to `γ·v`, the bucket value `pow_gamma(⌈log_gamma v⌉)` lies
in `[v, γ·v]`. -/
theorem roundTripCore {Pw L : ℝ → ℝ} {γ v : ℝ}
    (hmono : Monotone Pw) (hinv : Pw (L v) = v) (hinvγ : Pw (L (γ * v)) = γ * v)
    (hstep : L v + 1 ≤ L (γ * v)) :
    v ≤ Pw ((⌈L v⌉ : ℝ)) ∧ Pw ((⌈L v⌉ : ℝ)) ≤ γ * v := by
  constructor
  · conv_lhs => rw [← hinv]
    exact hmono (Int.le_ceil _)
  · conv_rhs => rw [← hinvγ]
    exact hmono (le_trans (le_of_lt (Int.ceil_lt_add_one _)) hstep)

end RoundTripCore

section LogarithmicMappingFacts

theorem multLog_pos {α : ℝ} (h0 : 0 < α) (h1 : α < 1) : 0 < multLog α := by
  unfold multLog multiplierOf
  have hg := log_gammaOf_pos h0 h1
  have h2 : 0 < Real.log 2 := Real.log_pos (by norm_num)
  positivity

theorem powGammaLog_mono {α : ℝ} (h0 : 0 < α) (h1 : α < 1) :
    Monotone (powGammaLog α) := by
  intro x y hxy
  unfold powGammaLog
  exact Real.rpow_le_rpow_of_exponent_le (by norm_num)
    ((div_le_div_right (multLog_pos h0 h1)).mpr hxy)

theorem powGammaLog_inv {α v : ℝ} (h0 : 0 < α) (h1 : α < 1) (hv : 0 < v) :
    powGammaLog α (logGammaLog α v) = v := by
  unfold powGammaLog logGammaLog
  rw [mul_div_cancel_right₀ _ (ne_of_gt (multLog_pos h0 h1))]
  exact Real.rpow_logb (by norm_num) (by norm_num) hv

theorem logGammaLog_step {α v : ℝ} (h0 : 0 < α) (h1 : α < 1) (hv : 0 < v) :
    logGammaLog α v + 1 ≤ logGammaLog α (gammaOf α * v) := by
  have hγ := one_lt_gammaOf h0 h1
  have hγ0 : gammaOf α ≠ 0 := by linarith
  have hv0 : v ≠ 0 := ne_of_gt hv
  unfold logGammaLog
  have hml : Real.logb 2 (gammaOf α) * multLog α = 1 := by
    unfold multLog multiplierOf Real.logb
    have hlγ : Real.log (gammaOf α) ≠ 0 := ne_of_gt (log_gammaOf_pos h0 h1)
    have hl2 : Real.log 2 ≠ 0 := ne_of_gt (Real.log_pos (by norm_num))
    field_simp
  have key : Real.logb 2 (gammaOf α * v) = Real.logb 2 v + Real.logb 2 (gammaOf α) := by
    simp only [Real.logb]
    rw [Real.log_mul hγ0 hv0]
    ring
  rw [key, add_mul, hml]

end LogarithmicMappingFacts

end DDSketchModel

namespace DDSketchModel

section FrexpFacts

theorem two_zpow_pos (n : ℤ) : (0 : ℝ) < 2 ^ n := zpow_pos (by norm_num) n

theorem two_rpow_intCast (n : ℤ) : (2 : ℝ) ^ ((n : ℤ) : ℝ) = (2 : ℝ) ^ n :=
  Real.rpow_intCast 2 n

theorem lt_two_zpow_fexp {v : ℝ} (hv : 0 < v) : v < (2 : ℝ) ^ fexp v := by
  have hvr : (2 : ℝ) ^ Real.logb 2 v = v := Real.rpow_logb (by norm_num) (by norm_num) hv
  have h1 : (2 : ℝ) ^ Real.logb 2 v < (2 : ℝ) ^ (((⌊Real.logb 2 v⌋ : ℤ) : ℝ) + 1) :=
    Real.rpow_lt_rpow_of_exponent_lt (by norm_num) (Int.lt_floor_add_one _)
  rw [hvr] at h1
  have h2 : (((⌊Real.logb 2 v⌋ : ℤ) : ℝ) + 1) = (((⌊Real.logb 2 v⌋ + 1 : ℤ) : ℤ) : ℝ) := by
    push_cast
    ring
  rw [h2, two_rpow_intCast] at h1
  exact h1

theorem two_zpow_fexp_sub_one_le {v : ℝ} (hv : 0 < v) : (2 : ℝ) ^ (fexp v - 1) ≤ v := by
  have hvr : (2 : ℝ) ^ Real.logb 2 v = v := Real.rpow_logb (by norm_num) (by norm_num) hv
  have h1 : (2 : ℝ) ^ (((⌊Real.logb 2 v⌋ : ℤ) : ℝ)) ≤ (2 : ℝ) ^ Real.logb 2 v :=
    Real.rpow_le_rpow_of_exponent_le (by norm_num) (Int.floor_le _)
  rw [hvr, two_rpow_intCast] at h1
  have h2 : fexp v - 1 = ⌊Real.logb 2 v⌋ := by
    unfold fexp
    ring
  rw [h2]
  exact h1

theorem two_zpow_fexp_eq {v : ℝ} : (2 : ℝ) ^ fexp v = 2 ^ (fexp v - 1) * 2 := by
  rw [← zpow_add_one₀ (by norm_num : (2 : ℝ) ≠ 0)]
  ring_nf

theorem sig_nonneg {v : ℝ} (hv : 0 < v) : 0 ≤ sig v := by
  have hp : (0 : ℝ) < 2 ^ fexp v := two_zpow_pos _
  have hle := two_zpow_fexp_sub_one_le hv
  unfold sig
  rw [sub_nonneg]
  have hd : (2 : ℝ) * (v / 2 ^ fexp v) = (2 * v) / 2 ^ fexp v := by ring
  rw [hd, le_div_iff hp]
  have := two_zpow_fexp_eq (v := v)
  nlinarith

theorem sig_lt_one {v : ℝ} (hv : 0 < v) : sig v < 1 := by
  have hp : (0 : ℝ) < 2 ^ fexp v := two_zpow_pos _
  have hlt := lt_two_zpow_fexp hv
  unfold sig
  have h1 : v / 2 ^ fexp v < 1 := (div_lt_one hp).mpr hlt
  linarith

theorem sig_identity {v : ℝ} (hv : 0 < v) : (sig v + 1) * (2 : ℝ) ^ (fexp v - 1) = v := by
  have hp : (0 : ℝ) < 2 ^ fexp v := two_zpow_pos _
  have hp' : ((2 : ℝ) ^ fexp v) ≠ 0 := ne_of_gt hp
  unfold sig
  have he := two_zpow_fexp_eq (v := v)
  field_simp
  nlinarith [he]

theorem sig_repr {v : ℝ} (hv : 0 < v) :
    sig v = (2 : ℝ) ^ (Real.logb 2 v - ((⌊Real.logb 2 v⌋ : ℤ) : ℝ)) - 1 := by
  have hvr : (2 : ℝ) ^ Real.logb 2 v = v := Real.rpow_logb (by norm_num) (by norm_num) hv
  have hfr : (2 : ℝ) ^ (Real.logb 2 v - ((⌊Real.logb 2 v⌋ : ℤ) : ℝ)) =
      v / (2 : ℝ) ^ ((⌊Real.logb 2 v⌋ : ℤ)) := by
    rw [Real.rpow_sub (by norm_num), hvr, two_rpow_intCast]
  rw [hfr]
  unfold sig
  have h2 : (2 : ℝ) ^ fexp v = 2 ^ ((⌊Real.logb 2 v⌋ : ℤ)) * 2 := by
    unfold fexp
    rw [← zpow_add_one₀ (by norm_num : (2 : ℝ) ≠ 0)]
  rw [h2]
  have hpz : ((2 : ℝ) ^ ((⌊Real.logb 2 v⌋ : ℤ))) ≠ 0 := ne_of_gt (two_zpow_pos _)
  field_simp
  ring

end FrexpFacts

section ConvexityFacts

theorem two_rpow_ge (x : ℝ) : 1 + x * Real.log 2 ≤ (2 : ℝ) ^ x := by
  have h := Real.add_one_le_exp (x * Real.log 2)
  rw [Real.rpow_def_of_pos (by norm_num : (0 : ℝ) < 2)]
  rw [mul_comm (Real.log 2) x]
  linarith

theorem two_rpow_le_one_add {x : ℝ} (h0 : 0 ≤ x) (h1 : x ≤ 1) : (2 : ℝ) ^ x ≤ 1 + x := by
  have hcx := convexOn_exp.2 (Set.mem_univ (0 : ℝ)) (Set.mem_univ (Real.log 2))
    (by linarith : (0 : ℝ) ≤ 1 - x) h0 (by ring)
  simp only [smul_eq_mul, mul_zero, zero_add, Real.exp_zero, mul_one] at hcx
  rw [Real.exp_log (by norm_num : (0 : ℝ) < 2)] at hcx
  rw [Real.rpow_def_of_pos (by norm_num : (0 : ℝ) < 2), mul_comm]
  linarith

theorem log_two_le_one : Real.log 2 ≤ 1 := by
  have := Real.log_le_sub_one_of_pos (by norm_num : (0 : ℝ) < 2)
  linarith

end ConvexityFacts

end DDSketchModel

namespace DDSketchModel

section LinearMappingFacts

/-- The piecewise-exponential interpolation `u ↦ ⌊u⌋ + (2^(u-⌊u⌋) - 1)` climbs
at least `ln 2` per unit: its increment over `[u, t]` is at least
`(t - u)·ln 2`. -/
theorem G_increment {u t : ℝ} (hut : u ≤ t) :
    (t - u) * Real.log 2 ≤
      (((⌊t⌋ : ℤ) : ℝ) + ((2 : ℝ) ^ (t - ((⌊t⌋ : ℤ) : ℝ)) - 1)) -
        (((⌊u⌋ : ℤ) : ℝ) + ((2 : ℝ) ^ (u - ((⌊u⌋ : ℤ) : ℝ)) - 1)) := by
  have hl2pos : 0 < Real.log 2 := Real.log_pos (by norm_num)
  have hl2le : Real.log 2 ≤ 1 := log_two_le_one
  set a := u - ((⌊u⌋ : ℤ) : ℝ) with ha_def
  set b := t - ((⌊t⌋ : ℤ) : ℝ) with hb_def
  have ha0 : 0 ≤ a := by
    rw [ha_def]
    have := Int.floor_le u
    linarith
  have ha1 : a < 1 := by
    rw [ha_def]
    have := Int.lt_floor_add_one u
    push_cast at this ⊢
    linarith
  have hb0 : 0 ≤ b := by
    rw [hb_def]
    have := Int.floor_le t
    linarith
  have hb1 : b < 1 := by
    rw [hb_def]
    have := Int.lt_floor_add_one t
    push_cast at this ⊢
    linarith
  have hD : ⌊u⌋ ≤ ⌊t⌋ := Int.floor_le_floor hut
  have hga : (2 : ℝ) ^ a ≤ 1 + a := two_rpow_le_one_add ha0 ha1.le
  have hgb : 1 + b * Real.log 2 ≤ (2 : ℝ) ^ b := two_rpow_ge b
  rcases eq_or_lt_of_le hD with heq | hlt
  · have hfloor : ((⌊t⌋ : ℤ) : ℝ) = ((⌊u⌋ : ℤ) : ℝ) := by rw [heq]
    have hab : a ≤ b := by
      rw [ha_def, hb_def, hfloor]
      linarith
    have h2a : (1 : ℝ) ≤ (2 : ℝ) ^ a := Real.one_le_rpow (by norm_num) ha0
    have hsplit : (2 : ℝ) ^ b = (2 : ℝ) ^ a * (2 : ℝ) ^ (b - a) := by
      rw [← Real.rpow_add (by norm_num)]
      ring_nf
    have hba : 1 + (b - a) * Real.log 2 ≤ (2 : ℝ) ^ (b - a) := two_rpow_ge (b - a)
    have h2apos : (0 : ℝ) < (2 : ℝ) ^ a := Real.rpow_pos_of_pos (by norm_num) a
    have key : (b - a) * Real.log 2 ≤ (2 : ℝ) ^ b - (2 : ℝ) ^ a := by
      have h1 : (2 : ℝ) ^ a * (1 + (b - a) * Real.log 2) ≤ (2 : ℝ) ^ a * (2 : ℝ) ^ (b - a) :=
        mul_le_mul_of_nonneg_left hba (le_of_lt h2apos)
      rw [← hsplit] at h1
      nlinarith [mul_nonneg (sub_nonneg.2 hab) hl2pos.le]
    have htu : t - u = b - a := by
      rw [ha_def, hb_def, hfloor]
      ring
    rw [htu]
    linarith
  · have hD1 : (1 : ℝ) ≤ ((⌊t⌋ : ℤ) : ℝ) - ((⌊u⌋ : ℤ) : ℝ) := by
      have : ⌊u⌋ + 1 ≤ ⌊t⌋ := hlt
      push_cast
      exact_mod_cast by linarith [this]
    have htu : t - u = (((⌊t⌋ : ℤ) : ℝ) - ((⌊u⌋ : ℤ) : ℝ)) + (b - a) := by
      rw [ha_def, hb_def]
      ring
    rw [htu]
    have hkey : 0 ≤ (((⌊t⌋ : ℤ) : ℝ) - ((⌊u⌋ : ℤ) : ℝ) - a) * (1 - Real.log 2) := by
      apply mul_nonneg
      · linarith
      · linarith
    nlinarith

theorem log2Approx_repr {v : ℝ} (hv : 0 < v) :
    log2Approx v = ((⌊Real.logb 2 v⌋ : ℤ) : ℝ) +
      ((2 : ℝ) ^ (Real.logb 2 v - ((⌊Real.logb 2 v⌋ : ℤ) : ℝ)) - 1) := by
  unfold log2Approx
  rw [sig_repr hv]
  unfold fexp
  push_cast
  ring

theorem log2Approx_increment {v w : ℝ} (hv : 0 < v) (hw : 0 < w) (hvw : v ≤ w) :
    (Real.logb 2 w - Real.logb 2 v) * Real.log 2 ≤ log2Approx w - log2Approx v := by
  rw [log2Approx_repr hv, log2Approx_repr hw]
  exact G_increment (Real.logb_le_logb_of_le (by norm_num) hv hvw)

theorem floor_log2Approx {v : ℝ} (hv : 0 < v) : ⌊log2Approx v⌋ = fexp v - 1 := by
  rw [Int.floor_eq_iff]
  unfold log2Approx
  constructor
  · have := sig_nonneg hv
    push_cast
    linarith
  · have := sig_lt_one hv
    push_cast
    linarith

theorem exp2Approx_inv {v : ℝ} (hv : 0 < v) : exp2Approx (log2Approx v) = v := by
  unfold exp2Approx
  rw [floor_log2Approx hv]
  have h1 : log2Approx v - (((fexp v - 1 : ℤ) : ℝ) + 1) + 2 = sig v + 1 := by
    unfold log2Approx
    push_cast
    ring
  have h2 : fexp v - 1 + 1 = fexp v := by ring
  rw [h1, h2]
  have h3 : (2 : ℝ) ^ fexp v = 2 ^ (fexp v - 1) * 2 := two_zpow_fexp_eq
  rw [h3]
  have := sig_identity hv
  nlinarith

theorem exp2Approx_mono : Monotone exp2Approx := by
  intro y z hyz
  have hfl : ⌊y⌋ ≤ ⌊z⌋ := Int.floor_le_floor hyz
  have hay0 : (0 : ℝ) ≤ y - ((⌊y⌋ : ℤ) : ℝ) := by
    have := Int.floor_le y
    linarith
  have hay1 : y - ((⌊y⌋ : ℤ) : ℝ) < 1 := by
    have := Int.lt_floor_add_one y
    push_cast at this ⊢
    linarith
  have haz0 : (0 : ℝ) ≤ z - ((⌊z⌋ : ℤ) : ℝ) := by
    have := Int.floor_le z
    linarith
  unfold exp2Approx
  rcases eq_or_lt_of_le hfl with heq | hlt
  · rw [← heq]
    have hp : (0 : ℝ) < (2 : ℝ) ^ (⌊y⌋ + 1) := two_zpow_pos _
    apply mul_le_mul_of_nonneg_right _ (le_of_lt hp)
    linarith
  · have h1 : (y - (((⌊y⌋ : ℤ) : ℝ) + 1) + 2) / 2 * (2 : ℝ) ^ (⌊y⌋ + 1) <
        (2 : ℝ) ^ (⌊y⌋ + 1) := by
      have hp : (0 : ℝ) < (2 : ℝ) ^ (⌊y⌋ + 1) := two_zpow_pos _
      have : (y - (((⌊y⌋ : ℤ) : ℝ) + 1) + 2) / 2 < 1 := by linarith
      nlinarith
    have h2 : ((2 : ℝ)) ^ (⌊y⌋ + 1) ≤ (2 : ℝ) ^ (⌊z⌋) := by
      apply zpow_le_zpow_right₀ (by norm_num)
      omega
    have h3 : (2 : ℝ) ^ (⌊z⌋) ≤ (z - (((⌊z⌋ : ℤ) : ℝ) + 1) + 2) / 2 * (2 : ℝ) ^ (⌊z⌋ + 1) := by
      have hsplit : (2 : ℝ) ^ (⌊z⌋ + 1) = 2 ^ (⌊z⌋) * 2 := by
        rw [← zpow_add_one₀ (by norm_num : (2 : ℝ) ≠ 0)]
      rw [hsplit]
      have hp : (0 : ℝ) < (2 : ℝ) ^ (⌊z⌋) := two_zpow_pos _
      nlinarith
    linarith

end LinearMappingFacts

end DDSketchModel

namespace DDSketchModel

section LinearVariant

theorem multiplierOf_pos {α : ℝ} (h0 : 0 < α) (h1 : α < 1) : 0 < multiplierOf α := by
  unfold multiplierOf
  have := log_gammaOf_pos h0 h1
  positivity

theorem powGammaLin_mono {α : ℝ} (h0 : 0 < α) (h1 : α < 1) : Monotone (powGammaLin α) :=
  fun _ _ hxy =>
    exp2Approx_mono ((div_le_div_right (multiplierOf_pos h0 h1)).mpr hxy)

theorem powGammaLin_inv {α v : ℝ} (h0 : 0 < α) (h1 : α < 1) (hv : 0 < v) :
    powGammaLin α (logGammaLin α v) = v := by
  unfold powGammaLin logGammaLin
  rw [mul_div_cancel_right₀ _ (ne_of_gt (multiplierOf_pos h0 h1))]
  exact exp2Approx_inv hv

theorem logb_gamma_mul {α v : ℝ} (h0 : 0 < α) (h1 : α < 1) (hv : 0 < v) :
    Real.logb 2 (gammaOf α * v) - Real.logb 2 v = Real.logb 2 (gammaOf α) := by
  have hγ := one_lt_gammaOf h0 h1
  simp only [Real.logb]
  rw [Real.log_mul (by linarith) (ne_of_gt hv)]
  ring

theorem logGammaLin_step {α v : ℝ} (h0 : 0 < α) (h1 : α < 1) (hv : 0 < v) :
    logGammaLin α v + 1 ≤ logGammaLin α (gammaOf α * v) := by
  have hγ := one_lt_gammaOf h0 h1
  have hγv : 0 < gammaOf α * v := by nlinarith
  have hvw : v ≤ gammaOf α * v := by nlinarith
  have hinc := log2Approx_increment hv hγv hvw
  rw [logb_gamma_mul h0 h1 hv] at hinc
  have hlb : Real.logb 2 (gammaOf α) * Real.log 2 = Real.log (gammaOf α) := by
    rw [Real.logb]
    have : Real.log 2 ≠ 0 := ne_of_gt (Real.log_pos (by norm_num))
    field_simp
  rw [hlb] at hinc
  have hm := multiplierOf_pos h0 h1
  have h2 := mul_le_mul_of_nonneg_right hinc (le_of_lt hm)
  have hcancel : Real.log (gammaOf α) * multiplierOf α = 1 := by
    unfold multiplierOf
    have : Real.log (gammaOf α) ≠ 0 := ne_of_gt (log_gammaOf_pos h0 h1)
    field_simp
  rw [hcancel] at h2
  unfold logGammaLin
  nlinarith

end LinearVariant

end DDSketchModel

namespace DDSketchModel

section CubicFacts

theorem cubicP_strictMono : StrictMono cubicP := by
  intro s t hst
  unfold cubicP cubicA cubicB cubicC
  have hf : 0 < (6 / 35 : ℝ) * (t ^ 2 + t * s + s ^ 2) + (-3 / 5) * (t + s) + 10 / 7 := by
    nlinarith [sq_nonneg (t - s), sq_nonneg (3 * (s + t) - 7)]
  nlinarith [mul_pos (sub_pos.2 hst) hf]

theorem cubicP_zero : cubicP 0 = 0 := by
  unfold cubicP
  ring

theorem cubicP_one : cubicP 1 = 1 := by
  unfold cubicP cubicA cubicB cubicC
  norm_num

theorem cbrt_cube (x : ℝ) : (cbrt x) ^ 3 = x := by
  unfold cbrt
  split
  · next h =>
      have hx : (0 : ℝ) ≤ -x := by linarith
      have : ((-x) ^ ((1 : ℝ) / 3)) ^ (3 : ℕ) = -x := by
        rw [← Real.rpow_natCast ((-x) ^ ((1 : ℝ) / 3)) 3, ← Real.rpow_mul hx]
        norm_num
      calc (-((-x) ^ ((1 : ℝ) / 3))) ^ 3 = -(((-x) ^ ((1 : ℝ) / 3)) ^ (3 : ℕ)) := by ring
      _ = -(-x) := by rw [this]
      _ = x := by ring
  · next h =>
      have hx : (0 : ℝ) ≤ x := by linarith
      rw [← Real.rpow_natCast (x ^ ((1 : ℝ) / 3)) 3, ← Real.rpow_mul hx]
      norm_num

/-- The algebraic heart of `cubic_exp2_approx`: if `u` is the real cube root of
`(delta_1 - sqrt(delta_1^2 - 4 delta_0^3))/2`, then
`-(B + u + delta_0/u)/(3A)` solves `cubicP s = f`. -/
theorem cardano_algebra (f d0 d1 u : ℝ)
    (hd0 : d0 = cubicB ^ 2 - 3 * cubicA * cubicC)
    (hd1 : d1 = 2 * cubicB ^ 3 - 9 * cubicA * cubicB * cubicC - 27 * cubicA ^ 2 * f)
    (hu3 : u ^ 3 = (d1 - Real.sqrt (d1 ^ 2 - 4 * d0 ^ 3)) / 2) :
    cubicP ((-(cubicB + u + d0 / u)) / (3 * cubicA)) = f := by
  have hd0neg : d0 < 0 := by
    rw [hd0]
    unfold cubicA cubicB cubicC
    norm_num
  have hd0ne : d0 ≠ 0 := ne_of_lt hd0neg
  have hd0sq : 0 < d0 ^ 2 := by positivity
  have hd0cube : d0 ^ 3 < 0 := by nlinarith [mul_neg_of_neg_of_pos hd0neg hd0sq]
  have hDpos : 0 < d1 ^ 2 - 4 * d0 ^ 3 := by nlinarith [sq_nonneg d1]
  have hsq : Real.sqrt (d1 ^ 2 - 4 * d0 ^ 3) ^ 2 = d1 ^ 2 - 4 * d0 ^ 3 :=
    Real.sq_sqrt hDpos.le
  have hsqrt_pos : 0 < Real.sqrt (d1 ^ 2 - 4 * d0 ^ 3) := Real.sqrt_pos.2 hDpos
  have hgt : d1 < Real.sqrt (d1 ^ 2 - 4 * d0 ^ 3) := by
    rcases le_or_lt d1 0 with h | h
    · linarith
    · have h2 : d1 = Real.sqrt (d1 ^ 2) := by
        rw [Real.sqrt_sq h.le]
      calc d1 = Real.sqrt (d1 ^ 2) := h2
      _ < Real.sqrt (d1 ^ 2 - 4 * d0 ^ 3) :=
          Real.sqrt_lt_sqrt (sq_nonneg d1) (by nlinarith)
  have hu3neg : u ^ 3 < 0 := by
    rw [hu3]
    linarith
  have hune : u ≠ 0 := by
    intro h
    rw [h] at hu3neg
    norm_num at hu3neg
  have hu3ne : u ^ 3 ≠ 0 := by
    intro h
    rw [h] at hu3neg
    norm_num at hu3neg
  have hu'3 : (d0 / u) ^ 3 = (d1 + Real.sqrt (d1 ^ 2 - 4 * d0 ^ 3)) / 2 := by
    rw [div_pow, hu3]
    have hne : (d1 - Real.sqrt (d1 ^ 2 - 4 * d0 ^ 3)) / 2 ≠ 0 := by
      intro h
      have : u ^ 3 = 0 := by rw [hu3, h]
      exact hu3ne this
    rw [div_eq_div_iff hne (by norm_num : (2 : ℝ) ≠ 0)]
    nlinarith [hsq]
  have hprod : u * (d0 / u) = d0 := by field_simp
  have hsum : u ^ 3 + (d0 / u) ^ 3 = d1 := by
    rw [hu3, hu'3]
    ring
  set w : ℝ := u + d0 / u with hw
  have hw3 : w ^ 3 = d1 + 3 * d0 * w := by
    have expand : w ^ 3 = u ^ 3 + (d0 / u) ^ 3 + 3 * (u * (d0 / u)) * (u + d0 / u) := by
      rw [hw]
      ring
    rw [expand, hsum, hprod, hw]
  have hgoal : cubicP ((-(cubicB + w)) / (3 * cubicA)) - f =
      (d1 + 3 * d0 * w - w ^ 3) / (27 * cubicA ^ 2) := by
    rw [hd1, hd0]
    unfold cubicP cubicA cubicB cubicC
    field_simp
    ring
  rw [hw3] at hgoal
  have : cubicP ((-(cubicB + w)) / (3 * cubicA)) - f = 0 := by
    rw [hgoal]
    ring_nf
  have hfin : cubicP ((-(cubicB + w)) / (3 * cubicA)) = f := by linarith
  calc cubicP ((-(cubicB + u + d0 / u)) / (3 * cubicA))
  _ = cubicP ((-(cubicB + w)) / (3 * cubicA)) := by rw [hw]; ring_nf
  _ = f := hfin

theorem cardanoS_solves (f : ℝ) : cubicP (cardanoS f) = f := by
  simp only [cardanoS]
  exact cardano_algebra f _ _ _ rfl rfl (cbrt_cube _)

end CubicFacts

end DDSketchModel

namespace DDSketchModel

section CubicInverse

theorem cardanoS_eq_of {x f : ℝ} (hx : cubicP x = f) : cardanoS f = x :=
  cubicP_strictMono.injective (by rw [cardanoS_solves, hx])

theorem cardanoS_mono : Monotone cardanoS := by
  intro f g hfg
  by_contra h
  push_neg at h
  have := cubicP_strictMono h
  rw [cardanoS_solves, cardanoS_solves] at this
  linarith

theorem cardanoS_range {f : ℝ} (h0 : 0 ≤ f) (h1 : f < 1) :
    0 ≤ cardanoS f ∧ cardanoS f < 1 := by
  constructor
  · by_contra h
    push_neg at h
    have := cubicP_strictMono h
    rw [cardanoS_solves, cubicP_zero] at this
    linarith
  · by_contra h
    push_neg at h
    have := cubicP_strictMono.monotone h
    rw [cardanoS_solves, cubicP_one] at this
    linarith

theorem cubicLog2Approx_eq (v : ℝ) :
    cubicLog2Approx v = cubicP (sig v) + ((fexp v : ℤ) : ℝ) - 1 := by
  unfold cubicLog2Approx cubicP
  ring

theorem cubicP_sig_mem {v : ℝ} (hv : 0 < v) : 0 ≤ cubicP (sig v) ∧ cubicP (sig v) < 1 := by
  constructor
  · have := cubicP_strictMono.monotone (sig_nonneg hv)
    rw [cubicP_zero] at this
    exact this
  · have := cubicP_strictMono (sig_lt_one hv)
    rw [cubicP_one] at this
    exact this

theorem floor_cubicLog2Approx {v : ℝ} (hv : 0 < v) : ⌊cubicLog2Approx v⌋ = fexp v - 1 := by
  rw [Int.floor_eq_iff, cubicLog2Approx_eq]
  obtain ⟨hp0, hp1⟩ := cubicP_sig_mem hv
  constructor
  · push_cast
    linarith
  · push_cast
    linarith

theorem cubicExp2Approx_inv {v : ℝ} (hv : 0 < v) :
    cubicExp2Approx (cubicLog2Approx v) = v := by
  unfold cubicExp2Approx
  rw [floor_cubicLog2Approx hv]
  have hfr : cubicLog2Approx v - ((fexp v - 1 : ℤ) : ℝ) = cubicP (sig v) := by
    rw [cubicLog2Approx_eq]
    push_cast
    ring
  rw [hfr, cardanoS_eq_of (rfl : cubicP (sig v) = cubicP (sig v))]
  have h2 : fexp v - 1 + 1 = fexp v := by ring
  rw [h2]
  have h3 : (2 : ℝ) ^ fexp v = 2 ^ (fexp v - 1) * 2 := two_zpow_fexp_eq
  rw [h3]
  have := sig_identity hv
  nlinarith

theorem cubicExp2Approx_mono : Monotone cubicExp2Approx := by
  intro y z hyz
  have hfl : ⌊y⌋ ≤ ⌊z⌋ := Int.floor_le_floor hyz
  have hay0 : (0 : ℝ) ≤ y - ((⌊y⌋ : ℤ) : ℝ) := by
    have := Int.floor_le y
    linarith
  have hay1 : y - ((⌊y⌋ : ℤ) : ℝ) < 1 := by
    have := Int.lt_floor_add_one y
    push_cast at this ⊢
    linarith
  have haz0 : (0 : ℝ) ≤ z - ((⌊z⌋ : ℤ) : ℝ) := by
    have := Int.floor_le z
    linarith
  have haz1 : z - ((⌊z⌋ : ℤ) : ℝ) < 1 := by
    have := Int.lt_floor_add_one z
    push_cast at this ⊢
    linarith
  obtain ⟨hsy0, hsy1⟩ := cardanoS_range hay0 hay1
  obtain ⟨hsz0, hsz1⟩ := cardanoS_range haz0 haz1
  unfold cubicExp2Approx
  rcases eq_or_lt_of_le hfl with heq | hlt
  · rw [← heq]
    have hp : (0 : ℝ) < (2 : ℝ) ^ (⌊y⌋ + 1) := two_zpow_pos _
    apply mul_le_mul_of_nonneg_right _ (le_of_lt hp)
    have hmono := cardanoS_mono (show y - ((⌊y⌋ : ℤ) : ℝ) ≤ z - ((⌊y⌋ : ℤ) : ℝ) by linarith)
    linarith
  · have h1 : (cardanoS (y - ((⌊y⌋ : ℤ) : ℝ)) + 1) / 2 * (2 : ℝ) ^ (⌊y⌋ + 1) <
        (2 : ℝ) ^ (⌊y⌋ + 1) := by
      have hp : (0 : ℝ) < (2 : ℝ) ^ (⌊y⌋ + 1) := two_zpow_pos _
      nlinarith
    have h2 : ((2 : ℝ)) ^ (⌊y⌋ + 1) ≤ (2 : ℝ) ^ (⌊z⌋) := by
      apply zpow_le_zpow_right₀ (by norm_num)
      omega
    have h3 : (2 : ℝ) ^ (⌊z⌋) ≤ (cardanoS (z - ((⌊z⌋ : ℤ) : ℝ)) + 1) / 2 * (2 : ℝ) ^ (⌊z⌋ + 1) := by
      have hsplit : (2 : ℝ) ^ (⌊z⌋ + 1) = 2 ^ (⌊z⌋) * 2 := by
        rw [← zpow_add_one₀ (by norm_num : (2 : ℝ) ≠ 0)]
      rw [hsplit]
      have hp : (0 : ℝ) < (2 : ℝ) ^ (⌊z⌋) := two_zpow_pos _
      nlinarith
    linarith

end CubicInverse

end DDSketchModel

namespace DDSketchModel

section CubicCalculus

theorem cubicP_poly (x : ℝ) : cubicP x = cubicA * x ^ 3 + cubicB * x ^ 2 + cubicC * x := by
  unfold cubicP
  ring

theorem F_hasDerivAt {t : ℝ} (ht : -1 < t) :
    HasDerivAt (fun x => cubicP x - cubicC * Real.log (1 + x))
      ((3 * cubicA * t ^ 2 + 2 * cubicB * t + cubicC) - cubicC * (1 / (1 + t))) t := by
  have hpoly : HasDerivAt (fun x : ℝ => cubicA * x ^ 3 + (cubicB * x ^ 2 + cubicC * x))
      (cubicA * (3 * t ^ 2) + (cubicB * (2 * t) + cubicC)) t := by
    have h := ((hasDerivAt_pow 3 t).const_mul cubicA).add
      (((hasDerivAt_pow 2 t).const_mul cubicB).add ((hasDerivAt_id t).const_mul cubicC))
    norm_num at h
    exact h
  have hlog : HasDerivAt (fun x : ℝ => Real.log (1 + x)) (1 / (1 + t)) t := by
    have hne : (1 : ℝ) + t ≠ 0 := by linarith
    have := ((hasDerivAt_id t).const_add 1).log hne
    simpa using this
  have hcomb := hpoly.sub (hlog.const_mul cubicC)
  have hfun : (fun x : ℝ => cubicA * x ^ 3 + (cubicB * x ^ 2 + cubicC * x) -
      cubicC * Real.log (1 + x)) = (fun x => cubicP x - cubicC * Real.log (1 + x)) := by
    funext x
    rw [cubicP_poly]
    ring
  rw [hfun] at hcomb
  convert hcomb using 1
  ring

theorem F_deriv_nonneg {t : ℝ} (ht0 : 0 < t) (ht1 : t < 1) :
    0 ≤ (3 * cubicA * t ^ 2 + 2 * cubicB * t + cubicC) - cubicC * (1 / (1 + t)) := by
  have h1t : (0 : ℝ) < 1 + t := by linarith
  rw [sub_nonneg, mul_one_div, div_le_iff h1t]
  unfold cubicA cubicB cubicC
  nlinarith [mul_nonneg ht0.le (sq_nonneg (3 * t - 2))]

theorem F_monotoneOn :
    MonotoneOn (fun x => cubicP x - cubicC * Real.log (1 + x)) (Set.Icc (0 : ℝ) 1) := by
  apply monotoneOn_of_deriv_nonneg (convex_Icc 0 1)
  · intro x hx
    have hx' : (-1 : ℝ) < x := by
      have := hx.1
      linarith
    exact (F_hasDerivAt hx').continuousAt.continuousWithinAt
  · intro x hx
    rw [interior_Icc] at hx
    have hx' : (-1 : ℝ) < x := by linarith [hx.1]
    exact (F_hasDerivAt hx').differentiableAt.differentiableWithinAt
  · intro x hx
    rw [interior_Icc] at hx
    have hx' : (-1 : ℝ) < x := by linarith [hx.1]
    rw [(F_hasDerivAt hx').deriv]
    exact F_deriv_nonneg hx.1 hx.2

/-- `Φ(x) = cubicP(2^x - 1) - C·ln2·x` is nondecreasing on `[0, 1]`. -/
theorem phi_mono {x y : ℝ} (hx0 : 0 ≤ x) (hxy : x ≤ y) (hy1 : y ≤ 1) :
    cubicP ((2 : ℝ) ^ x - 1) - cubicC * Real.log 2 * x ≤
      cubicP ((2 : ℝ) ^ y - 1) - cubicC * Real.log 2 * y := by
  have hp0 : (1 : ℝ) ≤ (2 : ℝ) ^ x := Real.one_le_rpow (by norm_num) hx0
  have hq2 : (2 : ℝ) ^ y ≤ 2 := by
    have h1 : (2 : ℝ) ^ y ≤ (2 : ℝ) ^ (1 : ℝ) :=
      Real.rpow_le_rpow_of_exponent_le (by norm_num) hy1
    rwa [Real.rpow_one] at h1
  have hpq : (2 : ℝ) ^ x ≤ (2 : ℝ) ^ y :=
    Real.rpow_le_rpow_of_exponent_le (by norm_num) hxy
  have hmemx : (2 : ℝ) ^ x - 1 ∈ Set.Icc (0 : ℝ) 1 := by
    constructor <;> [linarith; linarith]
  have hmemy : (2 : ℝ) ^ y - 1 ∈ Set.Icc (0 : ℝ) 1 := by
    constructor <;> [linarith; linarith]
  have hF := F_monotoneOn hmemx hmemy (by linarith)
  have hlx : Real.log (1 + ((2 : ℝ) ^ x - 1)) = x * Real.log 2 := by
    have : (1 : ℝ) + ((2 : ℝ) ^ x - 1) = (2 : ℝ) ^ x := by ring
    rw [this, Real.log_rpow (by norm_num)]
  have hly : Real.log (1 + ((2 : ℝ) ^ y - 1)) = y * Real.log 2 := by
    have : (1 : ℝ) + ((2 : ℝ) ^ y - 1) = (2 : ℝ) ^ y := by ring
    rw [this, Real.log_rpow (by norm_num)]
  simp only [] at hF
  rw [hlx, hly] at hF
  nlinarith [hF]

theorem cubicC_log_two_lt_one : cubicC * Real.log 2 < 1 := by
  have h := Real.log_two_lt_d9
  unfold cubicC
  nlinarith

theorem cubicC_log_two_pos : 0 < cubicC * Real.log 2 := by
  have h2 : 0 < Real.log 2 := Real.log_pos (by norm_num)
  unfold cubicC
  nlinarith

/-- The cubic interpolation `u ↦ ⌊u⌋ + cubicP(2^(u-⌊u⌋) - 1)` climbs at least
`C·ln 2` per unit. -/
theorem cubicG_increment {u t : ℝ} (hut : u ≤ t) :
    (t - u) * (cubicC * Real.log 2) ≤
      (((⌊t⌋ : ℤ) : ℝ) + cubicP ((2 : ℝ) ^ (t - ((⌊t⌋ : ℤ) : ℝ)) - 1)) -
        (((⌊u⌋ : ℤ) : ℝ) + cubicP ((2 : ℝ) ^ (u - ((⌊u⌋ : ℤ) : ℝ)) - 1)) := by
  have hc1 := cubicC_log_two_lt_one
  have hc0 := cubicC_log_two_pos
  set a := u - ((⌊u⌋ : ℤ) : ℝ) with ha_def
  set b := t - ((⌊t⌋ : ℤ) : ℝ) with hb_def
  have ha0 : 0 ≤ a := by
    rw [ha_def]
    have := Int.floor_le u
    linarith
  have ha1 : a < 1 := by
    rw [ha_def]
    have := Int.lt_floor_add_one u
    push_cast at this ⊢
    linarith
  have hb0 : 0 ≤ b := by
    rw [hb_def]
    have := Int.floor_le t
    linarith
  have hb1 : b < 1 := by
    rw [hb_def]
    have := Int.lt_floor_add_one t
    push_cast at this ⊢
    linarith
  have hD : ⌊u⌋ ≤ ⌊t⌋ := Int.floor_le_floor hut
  rcases eq_or_lt_of_le hD with heq | hlt
  · have hfloor : ((⌊t⌋ : ℤ) : ℝ) = ((⌊u⌋ : ℤ) : ℝ) := by rw [heq]
    have hab : a ≤ b := by
      rw [ha_def, hb_def, hfloor]
      linarith
    have hphi := phi_mono ha0 hab hb1.le
    have htu : t - u = b - a := by
      rw [ha_def, hb_def, hfloor]
      ring
    rw [htu]
    nlinarith [hphi]
  · have hD1 : (1 : ℝ) ≤ ((⌊t⌋ : ℤ) : ℝ) - ((⌊u⌋ : ℤ) : ℝ) := by
      have h : ⌊u⌋ + 1 ≤ ⌊t⌋ := hlt
      push_cast
      exact_mod_cast by linarith [h]
    have htu : t - u = (((⌊t⌋ : ℤ) : ℝ) - ((⌊u⌋ : ℤ) : ℝ)) + (b - a) := by
      rw [ha_def, hb_def]
      ring
    have hphib := phi_mono (le_refl 0) hb0 hb1.le
    have hphia := phi_mono ha0 ha1.le (le_refl 1)
    rw [Real.rpow_zero] at hphib
    rw [Real.rpow_one] at hphia
    have hP0 : cubicP ((1 : ℝ) - 1) = 0 := by
      norm_num [cubicP_zero]
    have hP1 : cubicP ((2 : ℝ) - 1) = 1 := by
      norm_num [cubicP_one]
    rw [hP0] at hphib
    rw [hP1] at hphia
    rw [htu]
    have hkey : 0 ≤ ((((⌊t⌋ : ℤ) : ℝ) - ((⌊u⌋ : ℤ) : ℝ)) - 1) * (1 - cubicC * Real.log 2) := by
      apply mul_nonneg
      · linarith
      · linarith
    nlinarith [hphib, hphia]

end CubicCalculus

end DDSketchModel

namespace DDSketchModel

section CubicVariant

theorem cubicC_pos : (0 : ℝ) < cubicC := by
  unfold cubicC
  norm_num

theorem multCub_pos {α : ℝ} (h0 : 0 < α) (h1 : α < 1) : 0 < multCub α := by
  unfold multCub
  exact div_pos (multiplierOf_pos h0 h1) cubicC_pos

theorem powGammaCub_mono {α : ℝ} (h0 : 0 < α) (h1 : α < 1) : Monotone (powGammaCub α) :=
  fun _ _ hxy =>
    cubicExp2Approx_mono ((div_le_div_right (multCub_pos h0 h1)).mpr hxy)

theorem powGammaCub_inv {α v : ℝ} (h0 : 0 < α) (h1 : α < 1) (hv : 0 < v) :
    powGammaCub α (logGammaCub α v) = v := by
  unfold powGammaCub logGammaCub
  rw [mul_div_cancel_right₀ _ (ne_of_gt (multCub_pos h0 h1))]
  exact cubicExp2Approx_inv hv

theorem cubicLog2Approx_repr {v : ℝ} (hv : 0 < v) :
    cubicLog2Approx v = ((⌊Real.logb 2 v⌋ : ℤ) : ℝ) +
      cubicP ((2 : ℝ) ^ (Real.logb 2 v - ((⌊Real.logb 2 v⌋ : ℤ) : ℝ)) - 1) := by
  rw [cubicLog2Approx_eq, sig_repr hv]
  unfold fexp
  push_cast
  ring

theorem cubicLog2Approx_increment {v w : ℝ} (hv : 0 < v) (hw : 0 < w) (hvw : v ≤ w) :
    (Real.logb 2 w - Real.logb 2 v) * (cubicC * Real.log 2) ≤
      cubicLog2Approx w - cubicLog2Approx v := by
  rw [cubicLog2Approx_repr hv, cubicLog2Approx_repr hw]
  exact cubicG_increment (Real.logb_le_logb_of_le (by norm_num) hv hvw)

theorem logGammaCub_step {α v : ℝ} (h0 : 0 < α) (h1 : α < 1) (hv : 0 < v) :
    logGammaCub α v + 1 ≤ logGammaCub α (gammaOf α * v) := by
  have hγ := one_lt_gammaOf h0 h1
  have hγv : 0 < gammaOf α * v := by nlinarith
  have hvw : v ≤ gammaOf α * v := by nlinarith
  have hinc := cubicLog2Approx_increment hv hγv hvw
  rw [logb_gamma_mul h0 h1 hv] at hinc
  have hlb : Real.logb 2 (gammaOf α) * (cubicC * Real.log 2) =
      cubicC * Real.log (gammaOf α) := by
    rw [Real.logb]
    have : Real.log 2 ≠ 0 := ne_of_gt (Real.log_pos (by norm_num))
    field_simp
    ring
  rw [hlb] at hinc
  have hm := multCub_pos h0 h1
  have h2 := mul_le_mul_of_nonneg_right hinc (le_of_lt hm)
  have hcancel : cubicC * Real.log (gammaOf α) * multCub α = 1 := by
    unfold multCub multiplierOf
    have hlγ : Real.log (gammaOf α) ≠ 0 := ne_of_gt (log_gammaOf_pos h0 h1)
    have hC : cubicC ≠ 0 := ne_of_gt cubicC_pos
    field_simp
    ring
  rw [hcancel] at h2
  unfold logGammaCub
  nlinarith

end CubicVariant

/-- C1. For every mapping variant (logarithmic, linearly interpolated,
cubically interpolated) constructed with relative accuracy `α ∈ (0, 1)` (and
the default offset 0), and every value `v` with
`min_possible ≤ v ≤ max_possible`, the round-trip `value(key(v))` is within
relative error `α` of `v`: `|value(key(v)) − v| / v ≤ α`.  The `double`
computations of `KeyMapping::key`/`value` are modelled in exact real
arithmetic. -/
theorem claim_C1_mapping_round_trip (mk : MappingKind) (α v : ℝ)
    (h0 : 0 < α) (h1 : α < 1) (hlo : minPossible α ≤ v) (hhi : v ≤ maxPossible α) :
    |valueM mk α 0 (keyM mk α 0 v) - v| / v ≤ α := by
  have hv : 0 < v := lt_of_lt_of_le (minPossible_pos h0 h1) hlo
  have hγ := one_lt_gammaOf h0 h1
  have hγv : 0 < gammaOf α * v := by nlinarith
  have hkey : keyM mk α 0 v = ⌈logGamma mk α v⌉ := by
    unfold keyM
    rw [add_zero]
    exact truncZ_intCast _
  have hval : valueM mk α 0 (keyM mk α 0 v) =
      powGamma mk α ((⌈logGamma mk α v⌉ : ℤ) : ℝ) * (1 - α) := by
    unfold valueM
    rw [hkey, sub_zero, two_div_one_add_gammaOf h0 h1]
  have hbr : v ≤ powGamma mk α ((⌈logGamma mk α v⌉ : ℤ) : ℝ) ∧
      powGamma mk α ((⌈logGamma mk α v⌉ : ℤ) : ℝ) ≤ gammaOf α * v := by
    cases mk with
    | logarithmic =>
        simp only [logGamma, powGamma]
        exact roundTripCore (powGammaLog_mono h0 h1) (powGammaLog_inv h0 h1 hv)
          (powGammaLog_inv h0 h1 hγv) (logGammaLog_step h0 h1 hv)
    | linearInterpolated =>
        simp only [logGamma, powGamma]
        exact roundTripCore (powGammaLin_mono h0 h1) (powGammaLin_inv h0 h1 hv)
          (powGammaLin_inv h0 h1 hγv) (logGammaLin_step h0 h1 hv)
    | cubicInterpolated =>
        simp only [logGamma, powGamma]
        exact roundTripCore (powGammaCub_mono h0 h1) (powGammaCub_inv h0 h1 hv)
          (powGammaCub_inv h0 h1 hγv) (logGammaCub_step h0 h1 hv)
  obtain ⟨hlow, hup⟩ := hbr
  have hαγ := one_sub_mul_gammaOf h0 h1
  rw [hval, div_le_iff hv, abs_le]
  constructor
  · nlinarith
  · nlinarith

/-- Witness for C1: the logarithmic mapping with `α = 1/2` at `v = 1`
satisfies all hypotheses and the round-trip bound. -/
theorem claim_C1_mapping_round_trip_witness :
    (0 < (1 / 2 : ℝ)) ∧ ((1 / 2 : ℝ) < 1) ∧ minPossible (1 / 2) ≤ 1 ∧
      (1 : ℝ) ≤ maxPossible (1 / 2) ∧
      |valueM MappingKind.logarithmic (1 / 2) 0
          (keyM MappingKind.logarithmic (1 / 2) 0 1) - 1| / 1 ≤ (1 / 2 : ℝ) := by
  have hγval : gammaOf (1 / 2 : ℝ) = 3 := by
    unfold gammaOf
    norm_num
  have hdmin : dblMin ≤ 1 / 4 := by
    unfold dblMin
    have h := zpow_le_zpow_right₀ (by norm_num : (1 : ℝ) ≤ 2)
      (by norm_num : (-1022 : ℤ) ≤ -2)
    have h2 : ((2 : ℝ) ^ (-2 : ℤ)) = 1 / 4 := by norm_num
    linarith [h2 ▸ h]
  have hmin : minPossible (1 / 2 : ℝ) ≤ 1 := by
    unfold minPossible
    rw [hγval]
    nlinarith [dblMin_pos]
  have hmax : (1 : ℝ) ≤ maxPossible (1 / 2) := by
    unfold maxPossible
    rw [hγval]
    rw [le_div_iff (by norm_num : (0 : ℝ) < 3)]
    unfold dblMax
    have ha : (2 : ℝ) ^ (1024 : ℤ) = 2 ^ (971 : ℤ) * 2 ^ (53 : ℤ) := by
      rw [← zpow_add₀ (by norm_num : (2 : ℝ) ≠ 0)]
      norm_num
    have hb : (4 : ℝ) ≤ (2 : ℝ) ^ (971 : ℤ) := by
      have h := zpow_le_zpow_right₀ (by norm_num : (1 : ℝ) ≤ 2)
        (by norm_num : (2 : ℤ) ≤ 971)
      have h2 : ((2 : ℝ) ^ (2 : ℤ)) = 4 := by norm_num
      linarith [h2 ▸ h]
    have hc : (2 : ℝ) ≤ (2 : ℝ) ^ (53 : ℤ) := by
      have h := zpow_le_zpow_right₀ (by norm_num : (1 : ℝ) ≤ 2)
        (by norm_num : (1 : ℤ) ≤ 53)
      have h2 : ((2 : ℝ) ^ (1 : ℤ)) = 2 := by norm_num
      linarith [h2 ▸ h]
    nlinarith
  exact ⟨by norm_num, by norm_num, hmin, hmax,
    claim_C1_mapping_round_trip MappingKind.logarithmic (1 / 2) 1
      (by norm_num) (by norm_num) hmin hmax⟩

end DDSketchModel

namespace DDSketchModel

section KeyAtOne

theorem logb_two_one : Real.logb 2 (1 : ℝ) = 0 := by
  simp [Real.logb]

theorem fexp_one : fexp (1 : ℝ) = 1 := by
  unfold fexp
  rw [logb_two_one]
  norm_num

theorem sig_one : sig (1 : ℝ) = 0 := by
  unfold sig
  rw [fexp_one]
  norm_num

theorem logGamma_one (mk : MappingKind) (α : ℝ) : logGamma mk α 1 = 0 := by
  cases mk with
  | logarithmic =>
      simp only [logGamma]
      unfold logGammaLog
      rw [logb_two_one, zero_mul]
  | linearInterpolated =>
      simp only [logGamma]
      unfold logGammaLin log2Approx
      rw [sig_one, fexp_one]
      norm_num
  | cubicInterpolated =>
      simp only [logGamma]
      unfold logGammaCub cubicLog2Approx
      rw [sig_one, fexp_one]
      norm_num

theorem keyM_one (mk : MappingKind) (α off : ℝ) : keyM mk α off 1 = truncZ off := by
  unfold keyM
  rw [logGamma_one mk α]
  norm_num

end KeyAtOne

/-- C3 (counterexample). With the logarithmic mapping, `α = 0.01` and offset
`-12.23`, `key(1)` is `-12` (the `static_cast<Index>` truncation toward zero),
while `⌊-12.23⌋ = -13`: the claim `key(1) = ⌊offset⌋` is false at this offset
from the spec's own offset list. -/
theorem claim_C3_key_one_floor_counterexample :
    keyM MappingKind.logarithmic (1 / 100) (-1223 / 100) 1 = -12
    ∧ ⌊(-1223 / 100 : ℝ)⌋ = -13
    ∧ ((-12 : ℤ) ≠ -13) := by
  refine ⟨?_, ?_, by decide⟩
  · rw [keyM_one]
    unfold truncZ
    rw [if_neg (by norm_num)]
    rw [Int.ceil_eq_iff]
    constructor <;> norm_num
  · rw [Int.floor_eq_iff]
    constructor <;> norm_num

/-- C3 (amended). For every mapping variant and every offset (in particular
the spec's offsets `{0, 1, −12.23, 7768.3}` at `α = 0.01`), `key(1)` equals
the offset truncated toward zero — `static_cast<Index>(⌈log_γ(1)⌉ + offset)`
with `log_γ(1) = 0` — which is `⌊offset⌋` for the non-negative offsets but
`⌈offset⌉ = -12` at `-12.23`.  This matches the repository's own test
(`EXPECT_EQ(mapping.key(1), static_cast<int>(offset))`). -/
theorem claim_C3_key_one_truncated_offset (mk : MappingKind) (α off : ℝ) :
    keyM mk α off 1 = truncZ off :=
  keyM_one mk α off

end DDSketchModel

namespace DDSketchModel

section SketchHelpers

theorem gammaOf_half : gammaOf (1 / 2 : ℝ) = 3 := by
  unfold gammaOf
  norm_num

theorem dblMin_le_quarter : dblMin ≤ 1 / 4 := by
  unfold dblMin
  have h := zpow_le_zpow_right₀ (by norm_num : (1 : ℝ) ≤ 2)
    (by norm_num : (-1022 : ℤ) ≤ -2)
  have h2 : ((2 : ℝ) ^ (-2 : ℤ)) = 1 / 4 := by norm_num
  linarith [h2 ▸ h]

theorem minPossible_half_lt_one : minPossible (1 / 2 : ℝ) < 1 := by
  unfold minPossible
  rw [gammaOf_half]
  have := dblMin_le_quarter
  have := dblMin_pos
  nlinarith

theorem truncZ_zero : truncZ (0 : ℝ) = 0 := by
  unfold truncZ
  rw [if_pos (le_refl 0)]
  exact Int.floor_zero

theorem keyM_log_half_one : keyM MappingKind.logarithmic (1 / 2) 0 1 = 0 := by
  rw [keyM_one]
  exact truncZ_zero

theorem initStore_add_zero : (DStore.init 1 : DStore ℝ).add 0 1 = storeB := by
  have he1 : Int.ediv (-1 : ℤ) 1 = -1 := by decide
  have ht1 : Int.tdiv (1 : ℤ) 2 = 0 := by decide
  unfold DStore.init DStore.add DStore.getIndex DStore.extendRange DStore.adjust
    DStore.centerBins DStore.shiftBins DStore.getNewLength DStore.isEmpty DStore.length
    binAddAt extendBack removeLeading removeTrailing extendFront storeB kInt64Max kInt64Min
  norm_num [he1, ht1, List.replicate]

theorem powGammaLog_half_zero : powGammaLog (1 / 2) 0 = 1 := by
  unfold powGammaLog
  rw [zero_div, Real.rpow_zero]

theorem powGammaLog_half_neg_one : powGammaLog (1 / 2) (-1) = 1 / 3 := by
  unfold powGammaLog multLog multiplierOf
  rw [gammaOf_half]
  have hl3 : Real.log 3 ≠ 0 := ne_of_gt (Real.log_pos (by norm_num))
  have hl2 : Real.log 2 ≠ 0 := ne_of_gt (Real.log_pos (by norm_num))
  have harg : (-1 : ℝ) / (1 / Real.log 3 * Real.log 2) = -(Real.logb 2 3) := by
    unfold Real.logb
    field_simp
  rw [harg, Real.rpow_neg (by norm_num : (0 : ℝ) ≤ 2),
    Real.rpow_logb (by norm_num) (by norm_num) (by norm_num : (0 : ℝ) < 3)]
  norm_num

theorem keyAtRank_storeB : storeB.keyAtRank (0 : ℝ) true = 0 := by
  unfold storeB DStore.keyAtRank keyAtRankGo
  norm_num

end SketchHelpers

end DDSketchModel

namespace DDSketchModel

/-- C4. The claim says a fresh sketch has `min = +∞` and `max = −∞`, so after
the first `add(v, w)` both equal `v` for either sign of `v`.  The constructor
(ddsketch.h lines 1066-1067) actually uses `numeric_limits<double>::max()`
(DBL_MAX) for `min_` and `numeric_limits<double>::min()` — the smallest
positive normal, `2^(-1022)`, not `-∞` — for `max_`.  Consequently, after
`add(-5, 1)` on a fresh sketch the field `max_` is still `2^(-1022)`, not
`-5`. -/
theorem claim_C4_min_max_initialization :
    c4Sketch.minV = dblMax
    ∧ c4Sketch.maxV = dblMin
    ∧ ((addSketch c4Sketch (-5) 1).map SketchState.maxV) = some dblMin
    ∧ dblMin = (2 : ℝ) ^ (-1022 : ℤ)
    ∧ dblMin ≠ (-5 : ℝ) := by
  refine ⟨rfl, rfl, ?_, rfl, ?_⟩
  · have hw : ¬ ((1 : ℝ) ≤ 0) := by norm_num
    have hmax : ¬ (c4Sketch.maxV < (-5 : ℝ)) := by
      show ¬ (dblMin < (-5 : ℝ))
      have := dblMin_pos
      push_neg
      linarith
    simp only [addSketch, if_neg hw, Option.map_some']
    show some (if c4Sketch.maxV < (-5 : ℝ) then (-5 : ℝ) else c4Sketch.maxV) = some dblMin
    rw [if_neg hmax]
    rfl
  · have := dblMin_pos
    intro h
    linarith

end DDSketchModel

namespace DDSketchModel

/-- C7. `get_quantile_value(q)` (ddsketch.h lines 1118-1139) returns NaN if
and only if `q < 0`, `q > 1`, or the sketch's count is 0; all other inputs
produce a (finite, in exact real arithmetic) value, and no branch raises an
error. -/
theorem claim_C7_quantile_nan_iff (s : SketchState) (q : ℝ) :
    getQuantileValue s q = DFloat.nan ↔ (q < 0 ∨ 1 < q ∨ s.count = 0) := by
  unfold getQuantileValue
  by_cases h : q < 0 ∨ 1 < q ∨ s.count = 0
  · simp [h]
  · rw [if_neg h]
    constructor
    · intro hc
      exfalso
      dsimp only at hc
      split_ifs at hc <;> exact DFloat.noConfusion hc
    · intro hc
      exact absurd hc h

/-- C9. Sketch merge (ddsketch.h lines 1147-1157) fails with the
unequal-parameters exception exactly when the two mappings' `γ` differ;
`mergeable` (lines 1176-1178) is true iff the `γ` are identical; and the
check precedes the empty-sketch short-circuits, so the merge of sketches with
different `γ` fails even when either sketch is empty. -/
theorem claim_C9_merge_unequal_gamma (a b : SketchState) :
    (mergeSketch a b = none ↔ a.mapping.gamma ≠ b.mapping.gamma)
    ∧ (mergeableSketch a b = true ↔ a.mapping.gamma = b.mapping.gamma)
    ∧ (b.count = 0 ∨ a.count = 0 → a.mapping.gamma ≠ b.mapping.gamma →
        mergeSketch a b = none) := by
  refine ⟨?_, ?_, ?_⟩
  · unfold mergeSketch
    by_cases h : a.mapping.gamma = b.mapping.gamma
    · rw [if_neg (not_not_intro h)]
      constructor
      · intro hc
        exfalso
        split_ifs at hc <;> exact Option.noConfusion hc
      · intro hc
        exact absurd h hc
    · rw [if_pos h]
      simp [h]
  · unfold mergeableSketch
    constructor
    · intro h
      exact of_decide_eq_true h
    · intro h
      exact decide_eq_true h
  · intro _ hne
    unfold mergeSketch
    rw [if_pos hne]

/-- C10. On a newly constructed sketch no value has ever been added, so
`count_ = 0` and `sum_ = 0`; `avg()` (ddsketch.h lines 1083-1085) computes
`sum_ / count_ = 0/0` with no emptiness guard, which in IEEE double
arithmetic is NaN. -/
theorem claim_C10_avg_empty_is_nan (m : MappingModel) (st nst : DStore ℝ) :
    (initSketch m st nst).count = 0
    ∧ (initSketch m st nst).sumV = 0
    ∧ avgSketch (initSketch m st nst) = DFloat.nan := by
  refine ⟨rfl, rfl, ?_⟩
  unfold avgSketch divD initSketch
  norm_num

end DDSketchModel

namespace DDSketchModel

section C8Helpers

theorem four_le_dblMax : (4 : ℝ) ≤ dblMax := by
  unfold dblMax
  have ha : (2 : ℝ) ^ (1024 : ℤ) = 2 ^ (971 : ℤ) * 2 ^ (53 : ℤ) := by
    rw [← zpow_add₀ (by norm_num : (2 : ℝ) ≠ 0)]
    norm_num
  have hb : (4 : ℝ) ≤ (2 : ℝ) ^ (971 : ℤ) := by
    have h := zpow_le_zpow_right₀ (by norm_num : (1 : ℝ) ≤ 2)
      (by norm_num : (2 : ℤ) ≤ 971)
    have h2 : ((2 : ℝ) ^ (2 : ℤ)) = 4 := by norm_num
    linarith [h2 ▸ h]
  have hc : (2 : ℝ) ≤ (2 : ℝ) ^ (53 : ℤ) := by
    have h := zpow_le_zpow_right₀ (by norm_num : (1 : ℝ) ≤ 2)
      (by norm_num : (1 : ℤ) ≤ 53)
    have h2 : ((2 : ℝ) ^ (1 : ℤ)) = 2 := by norm_num
    linarith [h2 ▸ h]
  nlinarith

theorem one_lt_dblMax : (1 : ℝ) < dblMax := by linarith [four_le_dblMax]

theorem keyAtRank_storeB_lt_one {r : ℝ} (h1 : r < 1) : storeB.keyAtRank r true = 0 := by
  unfold storeB DStore.keyAtRank keyAtRankGo
  rw [if_pos (Or.inl ⟨rfl, by norm_num; linarith⟩)]
  rfl

theorem getQuantileValue_positive_branch (s : SketchState) (q : ℝ)
    (h0 : ¬(q < 0 ∨ 1 < q ∨ s.count = 0))
    (h1 : ¬(q * (s.count - 1) < s.negStore.count))
    (h2 : ¬(q * (s.count - 1) < s.zeroCount + s.negStore.count)) :
    getQuantileValue s q = DFloat.fin (s.mapping.value
      (s.store.keyAtRank (q * (s.count - 1) - s.zeroCount - s.negStore.count) true)) := by
  unfold getQuantileValue
  rw [if_neg h0]
  dsimp only
  rw [if_neg h1, if_neg h2]

theorem addSketch_B0 : addSketch sketchB0 1 1 = some sketchB := by
  unfold addSketch
  rw [if_neg (by norm_num : ¬((1 : ℝ) ≤ 0))]
  dsimp only
  rw [if_pos (show sketchB0.mapping.minPoss < 1 from minPossible_half_lt_one)]
  refine congrArg some ?_
  show SketchState.mk _ _ _ _ _ _ _ _ = sketchB
  unfold sketchB
  have hkey : sketchB0.mapping.key 1 = 0 := keyM_log_half_one
  congr 1
  case e_store =>
    rw [hkey]
    exact initStore_add_zero
  case e_count =>
    show (0 : ℝ) + 1 = 1
    norm_num
  case e_sumV =>
    show (0 : ℝ) + 1 * 1 = 1
    norm_num
  case e_minV =>
    show (if (1 : ℝ) < sketchB0.minV then 1 else sketchB0.minV) = 1
    rw [if_pos (show (1 : ℝ) < sketchB0.minV from one_lt_dblMax)]
  case e_maxV =>
    show (if sketchB0.maxV < (1 : ℝ) then 1 else sketchB0.maxV) = 1
    rw [if_pos (show sketchB0.maxV < (1 : ℝ) from by
      have h := dblMin_le_quarter
      show dblMin < 1
      linarith)]

theorem mergeSketch_A_B : mergeSketch sketchA sketchB = some (copySketch sketchA sketchB) := by
  unfold mergeSketch
  have hγ : sketchA.mapping.gamma = sketchB.mapping.gamma := rfl
  rw [if_neg (not_not_intro hγ)]
  rw [if_neg (show ¬ sketchB.count = 0 from by
    show ¬ ((1 : ℝ) = 0)
    norm_num)]
  have ha : sketchA.count = 0 := rfl
  rw [if_pos ha]

theorem quantile_sketchB : getQuantileValue sketchB (1 / 2) = DFloat.fin (1 / 2) := by
  have h0 : ¬ ((1 / 2 : ℝ) < 0 ∨ 1 < (1 / 2 : ℝ) ∨ sketchB.count = 0) := by
    push_neg
    refine ⟨by norm_num, by norm_num, ?_⟩
    show (1 : ℝ) ≠ 0
    norm_num
  have h1 : ¬ ((1 / 2 : ℝ) * (sketchB.count - 1) < sketchB.negStore.count) := by
    show ¬ ((1 / 2 : ℝ) * ((1 : ℝ) - 1) < (0 : ℝ))
    norm_num
  have h2 : ¬ ((1 / 2 : ℝ) * (sketchB.count - 1) <
      sketchB.zeroCount + sketchB.negStore.count) := by
    show ¬ ((1 / 2 : ℝ) * ((1 : ℝ) - 1) < (0 : ℝ) + 0)
    norm_num
  rw [getQuantileValue_positive_branch sketchB (1 / 2) h0 h1 h2]
  have hk : sketchB.store.keyAtRank
      ((1 / 2 : ℝ) * (sketchB.count - 1) - sketchB.zeroCount - sketchB.negStore.count)
      true = 0 :=
    keyAtRank_storeB_lt_one (by
      show (1 / 2 : ℝ) * ((1 : ℝ) - 1) - 0 - 0 < 1
      norm_num)
  rw [hk]
  show DFloat.fin (valueM MappingKind.logarithmic (1 / 2) 0 0) = DFloat.fin (1 / 2)
  unfold valueM
  rw [gammaOf_half]
  have h : (((0 : ℤ) : ℝ) - 0) = 0 := by norm_num
  rw [h]
  show DFloat.fin (powGammaLog (1 / 2) 0 * (2 / (1 + 3))) = DFloat.fin (1 / 2)
  rw [powGammaLog_half_zero]
  norm_num

theorem quantile_copyAB :
    getQuantileValue (copySketch sketchA sketchB) (1 / 2) = DFloat.fin (1 / 6) := by
  have h0 : ¬ ((1 / 2 : ℝ) < 0 ∨ 1 < (1 / 2 : ℝ) ∨ (copySketch sketchA sketchB).count = 0) := by
    push_neg
    refine ⟨by norm_num, by norm_num, ?_⟩
    show (1 : ℝ) ≠ 0
    norm_num
  have h1 : ¬ ((1 / 2 : ℝ) * ((copySketch sketchA sketchB).count - 1) <
      (copySketch sketchA sketchB).negStore.count) := by
    show ¬ ((1 / 2 : ℝ) * ((1 : ℝ) - 1) < (0 : ℝ))
    norm_num
  have h2 : ¬ ((1 / 2 : ℝ) * ((copySketch sketchA sketchB).count - 1) <
      (copySketch sketchA sketchB).zeroCount + (copySketch sketchA sketchB).negStore.count) := by
    show ¬ ((1 / 2 : ℝ) * ((1 : ℝ) - 1) < (0 : ℝ) + 0)
    norm_num
  rw [getQuantileValue_positive_branch (copySketch sketchA sketchB) (1 / 2) h0 h1 h2]
  have hk : (copySketch sketchA sketchB).store.keyAtRank
      ((1 / 2 : ℝ) * ((copySketch sketchA sketchB).count - 1) -
        (copySketch sketchA sketchB).zeroCount - (copySketch sketchA sketchB).negStore.count)
      true = 0 :=
    keyAtRank_storeB_lt_one (by
      show (1 / 2 : ℝ) * ((1 : ℝ) - 1) - 0 - 0 < 1
      norm_num)
  rw [hk]
  show DFloat.fin (valueM MappingKind.logarithmic (1 / 2) 1 0) = DFloat.fin (1 / 6)
  unfold valueM
  rw [gammaOf_half]
  have h : (((0 : ℤ) : ℝ) - 1) = -1 := by norm_num
  rw [h]
  show DFloat.fin (powGammaLog (1 / 2) (-1) * (2 / (1 + 3))) = DFloat.fin (1 / 6)
  rw [powGammaLog_half_neg_one]
  norm_num

end C8Helpers

/-- C8 (counterexample).  `sketchA` (empty, `LogarithmicMapping(0.5, 1)`) and
`sketchB` (`LogarithmicMapping(0.5, 0)` after `add(1.0, 1.0)`) have equal `γ`,
so `A.merge(B)` passes the `mergeable` check and — A being empty — returns
`copy(B)`.  But `BaseDDSketch::copy` (ddsketch.h lines 1181-1189) does not
copy `mapping_`, so the result keeps A's offset-1 mapping over B's store and
answers the median query with `value(0) = γ^(0-1)·2/(1+γ) = 1/6` while B
itself answers `γ^0·2/(1+γ) = 1/2`: the "deep copy ... answering every
quantile query identically to other" part of the claim fails. -/
theorem claim_C8_merge_copy_counterexample :
    addSketch sketchB0 1 1 = some sketchB
    ∧ sketchA.count = 0
    ∧ sketchA.mapping.gamma = sketchB.mapping.gamma
    ∧ mergeSketch sketchA sketchB = some (copySketch sketchA sketchB)
    ∧ getQuantileValue (copySketch sketchA sketchB) (1 / 2) = DFloat.fin (1 / 6)
    ∧ getQuantileValue sketchB (1 / 2) = DFloat.fin (1 / 2)
    ∧ DFloat.fin ((1 : ℝ) / 6) ≠ DFloat.fin ((1 : ℝ) / 2) := by
  refine ⟨addSketch_B0, rfl, rfl, mergeSketch_A_B, quantile_copyAB, quantile_sketchB, ?_⟩
  intro h
  have h16 : ((1 : ℝ) / 6) = 1 / 2 := DFloat.fin.inj h
  norm_num at h16

/-- C8 (amended).  In the functional model `merge` never touches `other` (it
only reads it).  With equal `γ`: an empty `other` leaves the receiver
unchanged (`merge` returns the receiver itself), and an empty receiver
becomes `other` with the receiver's own `mapping_` substituted — `copy` does
not copy the mapping — so its quantile answers coincide with `other`'s only
when the two mappings agree in full (same offset), not for every mergeable
pair. -/
theorem claim_C8_merge_frame (a b : SketchState)
    (hγ : a.mapping.gamma = b.mapping.gamma) :
    (b.count = 0 → mergeSketch a b = some a)
    ∧ (a.count = 0 → b.count ≠ 0 →
        mergeSketch a b = some { b with mapping := a.mapping })
    ∧ (a.count = 0 → b.count ≠ 0 → a.mapping = b.mapping →
        ∀ r, mergeSketch a b = some r → ∀ q, getQuantileValue r q = getQuantileValue b q) := by
  refine ⟨?_, ?_, ?_⟩
  · intro hb
    unfold mergeSketch
    rw [if_neg (not_not_intro hγ), if_pos hb]
  · intro ha hbne
    unfold mergeSketch
    rw [if_neg (not_not_intro hγ), if_neg hbne, if_pos ha]
    rfl
  · intro ha hbne hmap r hr q
    have hmerge : mergeSketch a b = some { b with mapping := a.mapping } := by
      unfold mergeSketch
      rw [if_neg (not_not_intro hγ), if_neg hbne, if_pos ha]
      rfl
    rw [hmerge] at hr
    have hre : r = { b with mapping := a.mapping } := (Option.some.inj hr).symm
    subst hre
    rw [hmap]

/-- C8 (witness): the amended theorem applied at the concrete pair
`(sketchA, sketchB)` — equal `γ`, empty receiver, nonempty other — computes
the merge result as `sketchB` re-labelled with `sketchA`'s mapping. -/
theorem claim_C8_merge_frame_witness :
    mergeSketch sketchA sketchB = some { sketchB with mapping := sketchA.mapping } :=
  (claim_C8_merge_frame sketchA sketchB rfl).2.1 rfl (by
    show ¬ ((1 : ℝ) = 0)
    norm_num)

end DDSketchModel
